import Mathlib

/-!
Verification model of the `@beltiston/events` EventEmitter
(`src/packages/EventEmitter/index.ts` and `src/packages/EventEmitter/helpers/index.ts`).

Listeners are opaque callables identified by natural numbers; an emission produces a
trace of invocations (`TraceEv.call listener args`) and of forwards to piped emitters
(`TraceEv.pipeCall target key args`).  Listener behaviour is restricted to what the
claims need: an environment `env : Nat → Bool` says which listeners call
`stopPropagation()` when invoked, and a filter environment `φ : Nat → List Val → Bool`
gives the verdict of each registered filter predicate.  Timers are modelled by their
callback functions (state transformers); scheduling and real time stay abstract.
-/

namespace EventsModel

/-- Argument values delivered to listeners: strings (event keys are prepended to
catch-all invocations as strings) and numbers. -/
inductive Val where
  | n (x : Nat)
  | s (x : String)
  deriving DecidableEq

/-- One observable step of an emission. -/
inductive TraceEv where
  | call (listener : Nat) (args : List Val)
  | pipeCall (target : Nat) (eventName : String) (args : List Val)
  deriving DecidableEq

/-- Number of invocations of listener `i` in a trace. -/
def countCalls (i : Nat) (t : List TraceEv) : Nat :=
  t.countP (fun e =>
    match e with
    | TraceEv.call j _ => j == i
    | TraceEv.pipeCall _ _ _ => false)

/- ### Association lists (model of JS objects / `Map` / `WeakMap` stores) -/

def aget {κ α : Type} [DecidableEq κ] (l : List (κ × α)) (k : κ) : Option α :=
  match l with
  | [] => none
  | p :: rest => if p.1 = k then some p.2 else aget rest k

/-- `store[k] = v`; an existing key keeps its position (JS object property update and
`Map.set` both preserve insertion order). -/
def aset {κ α : Type} [DecidableEq κ] (l : List (κ × α)) (k : κ) (v : α) : List (κ × α) :=
  match l with
  | [] => [(k, v)]
  | p :: rest => if p.1 = k then (k, v) :: rest else p :: aset rest k v

/-- `delete store[k]` / `Map.delete`. -/
def adel {κ α : Type} [DecidableEq κ] (l : List (κ × α)) (k : κ) : List (κ × α) :=
  match l with
  | [] => []
  | p :: rest => if p.1 = k then rest else p :: adel rest k

/- ### Pattern matcher (helpers/index.ts, `compilePattern`, lines 6-22)

The source builds a `RegExp` from the pattern text:
  - the literal pattern `*` or `**` becomes `/^.*$/`;
  - otherwise `pattern.replace(/\*\*/g, '.*').replace(/\*/g, '[^.]*')` is anchored
    with `^`/`$`.  Note the second replace also rewrites the `*` inserted by the
    first one, so `**` effectively compiles to `.[^.]*`, and `?` and `.` are left
    as regex metacharacters.
The produced regexes use only literals, `.`, `[^.]*` and the `?` quantifier, so a
small total matcher models `RegExp.test` for them.  (A `?` directly after `[^.]*`
forms a lazy star, which accepts the same language as an optional star.) -/

/-- Atoms of the regexes produced by `compilePattern`. -/
inductive RAtom where
  | lit (c : Char)
  | anyChar
  | starNonDot
  | starAnyChar
  | quantOpt (a : RAtom)
  deriving DecidableEq

/-- `pattern.replace(/\*\*/g, '.*')`: leftmost non-overlapping `**` pairs. -/
def replaceDoubleStar : List Char → List Char
  | '*' :: '*' :: rest => '.' :: '*' :: replaceDoubleStar rest
  | c :: rest => c :: replaceDoubleStar rest
  | [] => []

/-- `.replace(/\*/g, '[^.]*')` on the result of `replaceDoubleStar`. -/
def replaceStar : List Char → List Char
  | '*' :: rest => '[' :: '^' :: '.' :: ']' :: '*' :: replaceStar rest
  | c :: rest => c :: replaceStar rest
  | [] => []

/-- Parse the produced regex body into atoms.  A `?` is a quantifier on the previous
atom; the only `*` left in the body belongs to the literal `[^.]*` blocks. -/
def parseRegexAux : List RAtom → List Char → List RAtom
  | acc, [] => acc.reverse
  | acc, '[' :: '^' :: '.' :: ']' :: '*' :: rest => parseRegexAux (RAtom.starNonDot :: acc) rest
  | acc, '?' :: rest =>
    match acc with
    | a :: arest => parseRegexAux (RAtom.quantOpt a :: arest) rest
    | [] => parseRegexAux acc rest
  | acc, '.' :: rest => parseRegexAux (RAtom.anyChar :: acc) rest
  | acc, c :: rest => parseRegexAux (RAtom.lit c :: acc) rest

/-- `[^.]*` with continuation `k`: stop here, or consume one non-separator and go on. -/
def starLoopNonDot (k : List Char → Bool) : List Char → Bool
  | [] => k []
  | d :: ds => k (d :: ds) || (if d = '.' then false else starLoopNonDot k ds)

/-- `.*` with continuation `k`. -/
def starLoopAny (k : List Char → Bool) : List Char → Bool
  | [] => k []
  | d :: ds => k (d :: ds) || starLoopAny k ds

/-- Match one atom against a prefix of the string, continuing with `k`. -/
def matchHead : RAtom → (List Char → Bool) → List Char → Bool
  | RAtom.lit c, k, s =>
    match s with
    | [] => false
    | d :: ds => if d = c then k ds else false
  | RAtom.anyChar, k, s =>
    match s with
    | [] => false
    | _ :: ds => k ds
  | RAtom.starNonDot, k, s => starLoopNonDot k s
  | RAtom.starAnyChar, k, s => starLoopAny k s
  | RAtom.quantOpt a, k, s => k s || matchHead a k s

/-- Full anchored match (`^body$`) of an atom sequence against a string. -/
def matchAtoms : List RAtom → List Char → Bool
  | [], s => s.isEmpty
  | a :: as, s => matchHead a (matchAtoms as) s

/-- `compilePattern` (helpers lines 6-22), as the atom sequence of the produced regex.
The process-wide `PATTERN_CACHE` is semantically transparent (compilation is pure). -/
def compilePatternM (pattern : String) : List RAtom :=
  if pattern == "*" || pattern == "**" then [RAtom.starAnyChar]
  else parseRegexAux [] (replaceStar (replaceDoubleStar pattern.toList))

/-- `compilePattern(pattern).test(name)`. -/
def wildcardTest (pattern name : String) : Bool :=
  matchAtoms (compilePatternM pattern) name.toList

/-- `key.includes(c)` for a single character (as used on index.ts line 118). -/
def strContains (s : String) (c : Char) : Bool := s.toList.contains c

/- ### Data model (index.ts lines 38-55, types/Listeners.ts) -/

/-- A per-key registry entry: a bare listener when exactly one was registered through
the fast path, otherwise an ordered array (`typeof current === 'function'` vs array). -/
inductive Entry where
  | one (listener : Nat)
  | many (listeners : List Nat)
  deriving DecidableEq

def Entry.toList : Entry → List Nat
  | Entry.one i => [i]
  | Entry.many l => l

def entryToList : Option Entry → List Nat
  | some e => e.toList
  | none => []

/-- `ListenerMeta` (types/Listeners.ts lines 10-21).  `timeoutId` is 1 when a TTL timer
was armed and 0 otherwise (`0` is the source's "no timer" value; the timer itself is
modelled by its callback function).  `wrapKey` models the `eventName` captured by the
times-wrapper closure (index.ts line 163).  `filter` holds the identity of the filter
predicate, resolved through a filter environment.  The `lastAccess` and `handle`
fields only serve the idle sweeper, which no modelled operation reads, and the
`ttl`/`propagate`/`stopped` fields are never written by the source. -/
structure ListenerMeta where
  priority : Int
  times : Int
  timeoutId : Nat
  original : Option Nat
  wrapKey : String
  filter : Option Nat
  deriving DecidableEq

/-- `ListenerOptions` (types/Listeners.ts lines 3-8). -/
structure LOptions where
  priority : Option Int
  times : Option Int
  ttl : Option Nat
  filter : Option Nat
  deriving DecidableEq

def noOpts : LOptions := { priority := none, times := none, ttl := none, filter := none }

/-- A wildcard registration entry `{listener, pattern}` (index.ts line 42); the stored
compiled `RegExp` is represented by the raw pattern text it was compiled from. -/
structure WildcardEntry where
  listener : Nat
  pat : String
  deriving DecidableEq

/-- The private state of one `EventEmitter` instance (index.ts lines 40-51). -/
structure EmitterState where
  events : List (String × Entry)
  onceEvents : List (String × Entry)
  wildcards : List (String × List WildcardEntry)
  anyListeners : List Nat
  pipes : List Nat
  metadata : Option (List (Nat × ListenerMeta))
  maxListeners : Nat
  propagationStopped : Bool
  flags : Nat
  deriving DecidableEq

/-- A freshly constructed emitter (no auto-cleanup options). -/
def emptyState : EmitterState :=
  { events := [], onceEvents := [], wildcards := [], anyListeners := [], pipes := [],
    metadata := none, maxListeners := 10, propagationStopped := false, flags := 0 }

/-- Flag bits (index.ts lines 52-55). -/
def HAS_WILDCARDS : Nat := 1
def HAS_PIPES : Nat := 2
def HAS_ANY : Nat := 4
def HAS_FILTERS : Nat := 8

/-- `flags &= ~mask` for the 4-bit flag masks (clears the bits of `mask`). -/
def clearFlags (f mask : Nat) : Nat := f - (f &&& mask)

def metaGet (s : EmitterState) (i : Nat) : Option ListenerMeta :=
  match s.metadata with
  | some mm => aget mm i
  | none => none

/-- `metadata.set(i, m)`; all call sites run after the map was created. -/
def metaSet (s : EmitterState) (i : Nat) (m : ListenerMeta) : EmitterState :=
  match s.metadata with
  | some mm => { s with metadata := some (aset mm i m) }
  | none => s

/-- `if (!this.metadata) this.metadata = new WeakMap()`. -/
def ensureMeta (s : EmitterState) : EmitterState :=
  match s.metadata with
  | some _ => s
  | none => { s with metadata := some [] }

def metaPriority (s : EmitterState) (i : Nat) : Int :=
  ((metaGet s i).map (fun m => m.priority)).getD 0

def metaOriginal (s : EmitterState) (i : Nat) : Option Nat :=
  (metaGet s i).bind (fun m => m.original)

/-- `cleanupListener` (helpers lines 43-48): cancel any pending TTL timer and drop the
metadata entry.  Cancelling the timer has no further modelled effect. -/
def cleanupListener (s : EmitterState) (i : Nat) : EmitterState :=
  match s.metadata with
  | none => s
  | some mm => { s with metadata := some (adel mm i) }

/-- `checkFilter` (helpers lines 51-53), with `φ` resolving filter identities. -/
def checkFilter (φ : Nat → List Val → Bool) (meta : Option ListenerMeta) (args : List Val) : Bool :=
  match meta with
  | some m =>
    match m.filter with
    | some f => φ f args
    | none => true
  | none => true

def lookupMetaIn (mm : Option (List (Nat × ListenerMeta))) (i : Nat) : Option ListenerMeta :=
  match mm with
  | some l => aget l i
  | none => none

/- ### removeListener (index.ts lines 361-447) -/

/-- The wildcard-entry scan of `removeListener` (lines 388-398) walks the entry array
from the end and removes the first match found, i.e. the last occurrence; `none` when
the listener is not present. -/
def removeLastWild : List WildcardEntry → Nat → Option (List WildcardEntry)
  | [], _ => none
  | e :: rest, fn =>
    match removeLastWild rest fn with
    | some rest2 => some (e :: rest2)
    | none => if e.listener = fn then some rest else none

/-- Backwards scan removing the last element satisfying `p`, returning it. -/
def removeLastBy (p : Nat → Bool) : List Nat → Option (Nat × List Nat)
  | [] => none
  | x :: rest =>
    match removeLastBy p rest with
    | some (r, rest2) => some (r, x :: rest2)
    | none => if p x then some (x, rest) else none

/-- Store an array back, collapsing as the source does after `splice`
(length 1 → bare listener, length 0 → delete, otherwise the array). -/
def restoreEntry (store : List (String × Entry)) (key : String) (l : List Nat) :
    List (String × Entry) :=
  match l with
  | [x] => aset store key (Entry.one x)
  | [] => adel store key
  | _ => aset store key (Entry.many l)

/-- The regular-events section of `removeListener` (lines 402-428), including the
wrapped-listener scan. -/
def removeFromEvents (s : EmitterState) (key : String) (fn : Nat) : EmitterState :=
  match aget s.events key with
  | some (Entry.one g) =>
    if g = fn then
      let t := cleanupListener s fn
      { t with events := adel t.events key }
    else s
  | some (Entry.many l) =>
    match l.findIdx? (fun x => x == fn) with
    | some idx =>
      let t := cleanupListener s fn
      { t with events := restoreEntry t.events key (l.eraseIdx idx) }
    | none =>
      match s.metadata with
      | some _ =>
        match removeLastBy (fun x => metaOriginal s x == some fn) l with
        | some (w, l2) =>
          let t := cleanupListener s w
          { t with events := restoreEntry t.events key l2 }
        | none => s
      | none => s
  | none => s

/-- The once-events section of `removeListener` (lines 430-444): same as the regular
section but without the wrapped-listener scan. -/
def removeFromOnce (s : EmitterState) (key : String) (fn : Nat) : EmitterState :=
  match aget s.onceEvents key with
  | some (Entry.one g) =>
    if g = fn then
      let t := cleanupListener s fn
      { t with onceEvents := adel t.onceEvents key }
    else s
  | some (Entry.many l) =>
    match l.findIdx? (fun x => x == fn) with
    | some idx =>
      let t := cleanupListener s fn
      { t with onceEvents := restoreEntry t.onceEvents key (l.eraseIdx idx) }
    | none => s
  | none => s

/-- `removeListener` after the wildcard branch: the regular section runs first, then
the once section on the resulting state. -/
def removeListenerRest (s : EmitterState) (key : String) (fn : Nat) : EmitterState :=
  removeFromOnce (removeFromEvents s key fn) key fn

/-- `removeListener(eventName, listener)` with both arguments present
(index.ts lines 361-447).  A hit in the wildcard store returns immediately. -/
def removeListenerFn (s : EmitterState) (key : String) (fn : Nat) : EmitterState :=
  match aget s.wildcards key with
  | some entries =>
    match removeLastWild entries fn with
    | some entries2 =>
      let s1 := cleanupListener s fn
      if entries2.isEmpty then
        let w2 := adel s1.wildcards key
        { s1 with wildcards := w2,
                  flags := if w2.isEmpty then clearFlags s1.flags HAS_WILDCARDS else s1.flags }
      else { s1 with wildcards := aset s1.wildcards key entries2 }
    | none => removeListenerRest s key fn
  | none => removeListenerRest s key fn

/- ### Registration (index.ts lines 114-219 and 275-346, helpers lines 56-88) -/

/-- Append through the unsorted path (lines 136-148 / 186-193); the `maxListeners`
check only prints a warning, so it has no state effect. -/
def entryAppend (store : List (String × Entry)) (key : String) (fn : Nat) :
    List (String × Entry) :=
  match aget store key with
  | none => aset store key (Entry.one fn)
  | some (Entry.one g) => aset store key (Entry.many [g, fn])
  | some (Entry.many l) => aset store key (Entry.many (l ++ [fn]))

/-- The ordered-insert scan (lines 206-215): place the new listener before the first
existing entry whose priority (`existingMeta?.priority ?? 0`) is strictly lower. -/
def insertByPriority (s : EmitterState) (arr : List Nat) (fn : Nat) (priority : Int) :
    List Nat :=
  match arr with
  | [] => [fn]
  | x :: rest =>
    if priority > metaPriority s x then fn :: x :: rest
    else x :: insertByPriority s rest fn priority

/-- `addWildcardListener` (helpers lines 56-88).  Metadata is only recorded when the
caller's `this.metadata` map already exists; the TTL timer is armed with an empty
callback (see `wildcardTtlTimer`). -/
def addWildcardListenerM (eventName : String) (fn : Nat) (s : EmitterState)
    (options : Option LOptions) : EmitterState :=
  let entry : WildcardEntry := { listener := fn, pat := eventName }
  let w2 := aset s.wildcards eventName (((aget s.wildcards eventName).getD []) ++ [entry])
  let flags : Nat := HAS_WILDCARDS
  match options, s.metadata with
  | some o, some mm =>
    let meta : ListenerMeta :=
      { priority := o.priority.getD 0, times := o.times.getD (-1),
        timeoutId := if 0 < o.ttl.getD 0 then 1 else 0,
        original := none, wrapKey := eventName, filter := o.filter }
    let flags2 := if o.filter.isSome then flags ||| HAS_FILTERS else flags
    { s with wildcards := w2, metadata := some (aset mm fn meta),
             flags := s.flags ||| flags2 }
  | _, _ => { s with wildcards := w2, flags := s.flags ||| flags }

/-- `addListener` (index.ts lines 114-219).  `wrapId` is the fresh identity of the
wrapper function allocated when `times > 0`; it is unused otherwise. -/
def addListener (s : EmitterState) (eventName : String) (fn : Nat)
    (options : Option LOptions) (wrapId : Nat) : EmitterState :=
  if strContains eventName '*' || strContains eventName '?' then
    addWildcardListenerM eventName fn s options
  else if eventName == "*" then
    -- dead for string keys: the wildcard branch above already captured '*'
    { s with anyListeners := s.anyListeners ++ [fn], flags := s.flags ||| HAS_ANY }
  else
    match options with
    | none => { s with events := entryAppend s.events eventName fn }
    | some o =>
      let s := ensureMeta s
      let priority := o.priority.getD 0
      let times := o.times.getD (-1)
      let wraps := 0 < times
      let finalListener := if wraps then wrapId else fn
      let meta : ListenerMeta :=
        { priority := priority, times := times,
          timeoutId := if 0 < o.ttl.getD 0 then 1 else 0,
          original := if wraps then some fn else none,
          wrapKey := eventName, filter := o.filter }
      let s := if o.filter.isSome then { s with flags := s.flags ||| HAS_FILTERS } else s
      let s := metaSet s finalListener meta
      if priority == 0 then { s with events := entryAppend s.events eventName finalListener }
      else
        match aget s.events eventName with
        | none =>
          -- the source seeds `arr = [finalListener]` (line 197) and then runs the same
          -- scan; the scan compares the new priority against `finalListener`'s own
          -- just-stored metadata, fails, and line 215 appends a second copy
          let arr := insertByPriority s [finalListener] finalListener priority
          { s with events := aset s.events eventName (Entry.many arr) }
        | some (Entry.one g) =>
          let arr := insertByPriority s [g] finalListener priority
          { s with events := aset s.events eventName (Entry.many arr) }
        | some (Entry.many l) =>
          let arr := insertByPriority s l finalListener priority
          { s with events := aset s.events eventName (Entry.many arr) }

/-- `once` (index.ts lines 275-346).  The no-options fast path (line 280) requires a
non-string key; modelled keys are strings, so registration always takes the
metadata path. -/
def onceL (s : EmitterState) (eventName : String) (fn : Nat)
    (options : Option LOptions) : EmitterState :=
  let s := ensureMeta s
  let priority := (options.bind (fun o => o.priority)).getD 0
  let meta : ListenerMeta :=
    { priority := priority, times := -1,
      timeoutId := if 0 < (options.bind (fun o => o.ttl)).getD 0 then 1 else 0,
      original := none, wrapKey := eventName,
      filter := options.bind (fun o => o.filter) }
  let s := if (options.bind (fun o => o.filter)).isSome
           then { s with flags := s.flags ||| HAS_FILTERS } else s
  let s := metaSet s fn meta
  if priority == 0 then { s with onceEvents := entryAppend s.onceEvents eventName fn }
  else
    match aget s.onceEvents eventName with
    | none =>
      -- same seed-and-rescan as `addListener` (lines 323-342): the fresh array is
      -- seeded with `fn`, the self-comparison fails, and `fn` is appended again
      let arr := insertByPriority s [fn] fn priority
      { s with onceEvents := aset s.onceEvents eventName (Entry.many arr) }
    | some (Entry.one g) =>
      let arr := insertByPriority s [g] fn priority
      { s with onceEvents := aset s.onceEvents eventName (Entry.many arr) }
    | some (Entry.many l) =>
      let arr := insertByPriority s l fn priority
      { s with onceEvents := aset s.onceEvents eventName (Entry.many arr) }

/-- `pipe` (index.ts line 746); targets are identified by number. -/
def pipeF (s : EmitterState) (target : Nat) : EmitterState :=
  { s with pipes := s.pipes ++ [target], flags := s.flags ||| HAS_PIPES }

/-- `stopPropagation` (index.ts line 731). -/
def stopPropagationF (s : EmitterState) : EmitterState :=
  { s with propagationStopped := true }

/- ### Timer callbacks -/

/-- Callback of the TTL timer armed by `addListener` for exact keys (index.ts
line 171): removes the (possibly wrapped) listener when it fires. -/
def addListenerTtlTimer (eventName : String) (finalListener : Nat)
    (s : EmitterState) : EmitterState :=
  removeListenerFn s eventName finalListener

/-- Callback of the TTL timer armed by `once` (index.ts line 298). -/
def onceTtlTimer (eventName : String) (listener : Nat) (s : EmitterState) : EmitterState :=
  removeListenerFn s eventName listener

/-- Callback of the TTL timer armed by `addWildcardListener` (helpers line 73): the
source arms `setTimeout(() => {}, options.ttl)`, so expiry changes nothing. -/
def wildcardTtlTimer (s : EmitterState) : EmitterState := s

/- ### Invocation (listener behaviour) -/

/-- Call one listener.  A listener whose metadata carries an `original` back-reference
is the times-wrapper of `addListener` (index.ts lines 161-165): it decrements
`meta.times`, removes itself from its registration key when the counter reaches 0,
and then applies the original callback.  `env` says which (user) callbacks invoke
`stopPropagation()` during their execution. -/
def invokeListener (env : Nat → Bool) (s : EmitterState) (i : Nat) (args : List Val) :
    EmitterState × TraceEv :=
  match metaGet s i with
  | some m =>
    match m.original with
    | some o =>
      let m2 := { m with times := m.times - 1 }
      let s1 := metaSet s i m2
      let s2 := if m2.times == 0 then removeListenerFn s1 m.wrapKey i else s1
      (if env o then stopPropagationF s2 else s2, TraceEv.call o args)
    | none => (if env i then stopPropagationF s else s, TraceEv.call i args)
  | none => (if env i then stopPropagationF s else s, TraceEv.call i args)

/-- Call a list of listeners in order (the plain `for` loops of `emit`). -/
def runList (env : Nat → Bool) (s : EmitterState) (ids : List Nat) (args : List Val) :
    EmitterState × List TraceEv :=
  match ids with
  | [] => (s, [])
  | i :: rest =>
    let (s1, ev) := invokeListener env s i args
    let (s2, t) := runList env s1 rest args
    (s2, ev :: t)

/- ### emitExtras (helpers/index.ts lines 119-164)

`emitExtras` snapshots the propagation flag into the local `stopped` once at entry and
never re-reads the live instance field, so a `stopPropagation()` issued by a listener
during these phases cannot trigger the `if (stopped) return` guards; the function is a
pure observer of the state.  The caller stores the returned flag back into
`this.propagationStopped`, overwriting any value the listeners wrote meanwhile. -/

/-- Inner loop over one pattern's entries (helpers lines 135-140); the returned `Bool`
is true when the loop performed the early `return {propagationStopped: true}`. -/
def extrasWildEntries (φ : Nat → List Val → Bool) (metaMap : Option (List (Nat × ListenerMeta)))
    (flags : Nat) (stopped : Bool) (name : String) (args : List Val) (argCount : Nat) :
    List WildcardEntry → List TraceEv × Bool
  | [] => ([], false)
  | e :: rest =>
    if !(wildcardTest e.pat name) then
      extrasWildEntries φ metaMap flags stopped name args argCount rest
    else if (flags &&& HAS_FILTERS ≠ 0) && !(checkFilter φ (lookupMetaIn metaMap e.listener) args) then
      extrasWildEntries φ metaMap flags stopped name args argCount rest
    else
      let ev := TraceEv.call e.listener (args.take argCount)
      if stopped then ([ev], true)
      else
        let (t, early) := extrasWildEntries φ metaMap flags stopped name args argCount rest
        (ev :: t, early)

/-- Outer loop over the wildcard map (helpers line 134). -/
def extrasWildLoop (φ : Nat → List Val → Bool) (metaMap : Option (List (Nat × ListenerMeta)))
    (flags : Nat) (stopped : Bool) (name : String) (args : List Val) (argCount : Nat) :
    List (String × List WildcardEntry) → List TraceEv × Bool
  | [] => ([], false)
  | pe :: rest =>
    let (t, early) := extrasWildEntries φ metaMap flags stopped name args argCount pe.2
    if early then (t, true)
    else
      let (t2, e2) := extrasWildLoop φ metaMap flags stopped name args argCount rest
      (t ++ t2, e2)

/-- Catch-all loop (helpers lines 146-152): every listener receives the event key
prepended to the argument tuple. -/
def extrasAnyLoop (stopped : Bool) (evArgs : List Val) : List Nat → List TraceEv × Bool
  | [] => ([], false)
  | l :: rest =>
    let ev := TraceEv.call l evArgs
    if stopped then ([ev], true)
    else
      let (t, e2) := extrasAnyLoop stopped evArgs rest
      (ev :: t, e2)

/-- Pipe loop (helpers lines 156-161): forwarding `p.emit(eventName, ...)` is the
observable step; the target's own emission is outside this instance's state. -/
def extrasPipeLoop (stopped : Bool) (name : String) (args : List Val) (argCount : Nat) :
    List Nat → List TraceEv × Bool
  | [] => ([], false)
  | p :: rest =>
    let ev := TraceEv.pipeCall p name (args.take argCount)
    if stopped then ([ev], true)
    else
      let (t, e2) := extrasPipeLoop stopped name args argCount rest
      (ev :: t, e2)

/-- `emitExtras` (helpers lines 119-164); the `typeof eventName === 'string'` guard is
always true for modelled keys. -/
def emitExtras (φ : Nat → List Val → Bool) (eventName : String) (args : List Val)
    (argCount : Nat) (wildcards : List (String × List WildcardEntry))
    (anyListeners : List Nat) (pipes : List Nat)
    (metaMap : Option (List (Nat × ListenerMeta))) (flags : Nat)
    (propagationStopped : Bool) : List TraceEv × Bool :=
  let stopped := propagationStopped
  let r1 :=
    if flags &&& HAS_WILDCARDS ≠ 0 then
      extrasWildLoop φ metaMap flags stopped eventName args argCount wildcards
    else ([], false)
  if r1.2 then (r1.1, true)
  else if stopped then (r1.1, true)
  else
    let r2 :=
      if flags &&& HAS_ANY ≠ 0 then
        extrasAnyLoop stopped (Val.s eventName :: args.take argCount) anyListeners
      else ([], false)
    if r2.2 then (r1.1 ++ r2.1, true)
    else if stopped then (r1.1 ++ r2.1, true)
    else
      let r3 :=
        if flags &&& HAS_PIPES ≠ 0 then
          extrasPipeLoop stopped eventName args argCount pipes
        else ([], false)
      if r3.2 then (r1.1 ++ r2.1 ++ r3.1, true)
      else (r1.1 ++ r2.1 ++ r3.1, stopped)

/- ### emit (index.ts lines 516-685) -/

/-- The once phase of the single-regular-listener fast path (lines 544-582): the
single once-listener is filter-checked, detached (metadata purged, key deleted)
before invocation; an array of once-listeners is detached wholesale and invoked
without filter checks or propagation checks in between. -/
def oncePhaseFast (env : Nat → Bool) (φ : Nat → List Val → Bool) (s : EmitterState)
    (key : String) (args fargs : List Val) : EmitterState × List TraceEv :=
  match aget s.onceEvents key with
  | none => (s, [])
  | some (Entry.one ol) =>
    if (s.flags &&& HAS_FILTERS == 0) || checkFilter φ (metaGet s ol) fargs then
      let s1 := cleanupListener s ol
      let s2 := { s1 with onceEvents := adel s1.onceEvents key }
      let (s3, ev) := invokeListener env s2 ol args
      (s3, [ev])
    else (s, [])
  | some (Entry.many ols) =>
    let s1 := ols.foldl (fun t i => cleanupListener t i) s
    let s2 := { s1 with onceEvents := adel s1.onceEvents key }
    runList env s2 ols args

/-- The once phase of the general path (lines 630-665): identical to the fast-path
version except that the single-listener branch performs no filter check, and it acts
on the entry snapshot `ol` taken before the regular listeners ran (line 605). -/
def oncePhaseSlow (env : Nat → Bool) (s : EmitterState) (key : String)
    (olE : Option Entry) (args : List Val) : EmitterState × List TraceEv :=
  match olE with
  | none => (s, [])
  | some (Entry.one ol) =>
    let s1 := cleanupListener s ol
    let s2 := { s1 with onceEvents := adel s1.onceEvents key }
    let (s3, ev) := invokeListener env s2 ol args
    (s3, [ev])
  | some (Entry.many ols) =>
    let s1 := ols.foldl (fun t i => cleanupListener t i) s
    let s2 := { s1 with onceEvents := adel s1.onceEvents key }
    runList env s2 ols args

/-- The tail shared by both `emit` paths: the live propagation check after the once
phase (lines 584 / 667) and, when any feature flag is set, the `emitExtras` call
whose returned flag is stored back into `propagationStopped` (lines 586-600 /
669-683). -/
def emitTail (φ : Nat → List Val → Bool) (eventName : String) (args : List Val)
    (al : Nat) (s2 : EmitterState) (t12 : List TraceEv) :
    Bool × EmitterState × List TraceEv :=
  if s2.propagationStopped then (true, s2, t12)
  else if s2.flags ≠ 0 then
    let r := emitExtras φ eventName (args.take 5) al s2.wildcards s2.anyListeners
      s2.pipes s2.metadata s2.flags s2.propagationStopped
    (true, { s2 with propagationStopped := r.2 }, t12 ++ r.1)
  else (true, s2, t12)

/-- `emit` (index.ts lines 516-685).  Returns (return value, final state, trace).
The 0-5-argument switch and the `arguments`-spreading fallback deliver the same
tuple, so invocation passes `args` wholesale; the filter arguments and the extras
arguments are `[a,b,c,d,e].slice(0, arguments.length - 1)`, i.e. `args.take 5`. -/
def emit (env : Nat → Bool) (φ : Nat → List Val → Bool) (s : EmitterState)
    (eventName : String) (args : List Val) : Bool × EmitterState × List TraceEv :=
  let al := args.length
  match aget s.events eventName with
  | some (Entry.one l) =>
    let fargs := args.take 5
    let r1 :=
      if (s.flags &&& HAS_FILTERS ≠ 0) && !(checkFilter φ (metaGet s l) fargs) then (s, ([] : List TraceEv))
      else ((invokeListener env s l args).1, [(invokeListener env s l args).2])
    if r1.1.propagationStopped then (true, r1.1, r1.2)
    else
      let r2 := oncePhaseFast env φ r1.1 eventName args fargs
      emitTail φ eventName args al r2.1 (r1.2 ++ r2.2)
  | lE =>
    let olE := aget s.onceEvents eventName
    if lE.isNone && olE.isNone && s.anyListeners.isEmpty && s.pipes.isEmpty then
      (false, s, [])
    else
      let r1 :=
        match lE with
        | some (Entry.many ls) => runList env s ls args
        | _ => (s, ([] : List TraceEv))
      let r2 := oncePhaseSlow env r1.1 eventName olE args
      emitTail φ eventName args al r2.1 (r1.2 ++ r2.2)

/- ### listeners / listenerCount / emitAsync (index.ts lines 698-717, 782-807, 848-874) -/

/-- `listeners(eventName)` (lines 848-874): regular entry, then once entry, then the
entries of every wildcard pattern matching the key, in map insertion order. -/
def listenersF (s : EmitterState) (key : String) : List Nat :=
  entryToList (aget s.events key) ++ entryToList (aget s.onceEvents key) ++
    s.wildcards.foldl
      (fun acc pe => if wildcardTest pe.1 key then acc ++ pe.2.map (fun e => e.listener) else acc)
      []

/-- `listenerCount(eventName)` with an argument (lines 791-806). -/
def listenerCountF (s : EmitterState) (key : String) : Nat :=
  (entryToList (aget s.events key)).length + (entryToList (aget s.onceEvents key)).length +
    s.wildcards.foldl
      (fun acc pe => if wildcardTest pe.1 key then acc + pe.2.length else acc) 0

/-- `emitAsync` (lines 698-717): resolves `this.listeners(eventName)` and invokes each
in order.  The per-listener `try`/`catch` (errors logged, not propagated) and the
`Promise.allSettled` wait are abstracted away: they affect neither which listeners
run nor the registry state.  Catch-all listeners and pipe targets are consulted only
in the emptiness test. -/
def emitAsync (env : Nat → Bool) (s : EmitterState) (eventName : String)
    (args : List Val) : Bool × EmitterState × List TraceEv :=
  if (listenersF s eventName).length == 0 && s.anyListeners.length == 0
      && s.pipes.length == 0 && s.wildcards.length == 0 then
    (false, s, [])
  else
    let (s1, t) := runList env s (listenersF s eventName) args
    (true, s1, t)

/- ### waitFor (index.ts lines 1046-1064) -/

/-- The rejection message of `waitFor`'s timeout timer (line 1060). -/
def waitForTimeoutMessage (eventName : String) (timeout : Nat) : String :=
  "Timeout waiting for event \"" ++ eventName ++ "\" after " ++ Nat.repr timeout ++ "ms"

/-- `waitFor` registers its handler with `this.once(eventName, handler)` (line 1055). -/
def waitForRegister (s : EmitterState) (eventName : String) (handler : Nat) : EmitterState :=
  onceL s eventName handler none

/-- The timeout timer of `waitFor` (lines 1058-1061) removes the handler before
rejecting, so a late emission cannot reach it. -/
def waitForTimeoutTimer (eventName : String) (handler : Nat) (s : EmitterState) :
    EmitterState :=
  removeListenerFn s eventName handler

/-- The always-false stop environment: listeners that never call `stopPropagation`. -/
def passiveEnv : Nat → Bool := fun _ => false

/-- A filter environment that accepts everything (no registered filter rejects). -/
def acceptAll : Nat → List Val → Bool := fun _ _ => true

/- ### Concrete scenario states used by the counterexample and bug-witness theorems -/

/-- An emitter whose only registration is `on("user.*", 9)`. -/
def wildOnlyState : EmitterState := addListener emptyState "user.*" 9 none 0

/-- `on("a", 1); on("b", 2); once("b", 3)`; listener 1 calls `stopPropagation()`. -/
def stickyState : EmitterState :=
  onceL (addListener (addListener emptyState "a" 1 none 0) "b" 2 none 0) "b" 3 none

def stickyEnv : Nat → Bool := fun i => i == 1

def stickyAfterA : EmitterState := (emit stickyEnv acceptAll stickyState "a" []).2.1

def timesOneOpts : LOptions := { priority := none, times := some 1, ttl := none, filter := none }

/-- `on("user.a", 1); on("user.a" matching wildcard "user.*", 2, {times: 1})`. -/
def wildTimesState : EmitterState :=
  addListener (addListener emptyState "user.a" 1 none 0) "user.*" 2 (some timesOneOpts) 0

def wildTimesAfterFirst : EmitterState := (emit passiveEnv acceptAll wildTimesState "user.a" []).2.1

def ttlOpts : LOptions := { priority := none, times := none, ttl := some 50, filter := none }

/-- `on("user.a", 1); on("user.*", 2, {ttl: 50})`. -/
def wildTtlState : EmitterState :=
  addListener (addListener emptyState "user.a" 1 none 0) "user.*" 2 (some ttlOpts) 0

/-- `on("*", 5)` on a fresh emitter. -/
def starState : EmitterState := addListener emptyState "*" 5 none 0

/-- `on("a", 1); pipe(7)`. -/
def pipedState : EmitterState := pipeF (addListener emptyState "a" 1 none 0) 7

def negPriOpts : LOptions := { priority := some (-1), times := none, ttl := none, filter := none }

/-- `on("k", 1, {priority: -1}); on("k", 2)`. -/
def negPriState : EmitterState :=
  addListener (addListener emptyState "k" 1 (some negPriOpts) 0) "k" 2 none 0

/- ### C1 -/

/-- C1: the claim fails on the code.  With only the wildcard registration
`on("user.*", 9)`, the emitter itself counts one listener for `"user.created"`
(and `listeners` returns it), yet `emit("user.created")` returns `false` and invokes
nothing: the guard at index.ts line 609 tests the regular, once, catch-all and pipe
collections but omits `this.wildcards`, and returns before the wildcard phase. -/
theorem emit_false_despite_wildcard_listener :
    listenerCountF wildOnlyState "user.created" = 1 ∧
    listenersF wildOnlyState "user.created" = [9] ∧
    emit passiveEnv acceptAll wildOnlyState "user.created" []
      = (false, wildOnlyState, []) := by
  decide

/- ### C2 -/

/-- C2: the claim fails on the code.  `propagationStopped` is an instance field that
no emission resets: after listener 1 stops propagation during `emit("a")`, the next
`emit("b")` still sees the flag, invokes only the single regular listener 2, skips
the once-listener 3 entirely (it stays registered), and leaves the flag set — the
claim requires the flag to be cleared at the start of the next emission so that 3 is
delivered to. -/
theorem propagation_flag_sticky_across_emits :
    stickyAfterA.propagationStopped = true ∧
    emit stickyEnv acceptAll stickyAfterA "b" [Val.n 7]
      = (true, stickyAfterA, [TraceEv.call 2 [Val.n 7]]) ∧
    countCalls 3 (emit stickyEnv acceptAll stickyAfterA "b" [Val.n 7]).2.2 = 0 ∧
    aget (emit stickyEnv acceptAll stickyAfterA "b" [Val.n 7]).2.1.onceEvents "b"
      = some (Entry.one 3) := by
  decide

/- ### C5 -/

/-- C5: the claim fails on the code for wildcard registrations.  The listener
registered through `on("user.*", 2, {times: 1})` is invoked by both of two
emissions of `"user.a"` (2 > 1 total invocations) and remains registered:
`addWildcardListener` stores the `times` option in metadata (when a metadata map
exists at all) but never wraps the listener, so nothing ever decrements the counter.
The exact-key path (index.ts lines 158-166) does enforce the cap. -/
theorem wildcard_times_listener_not_limited :
    countCalls 2 (emit passiveEnv acceptAll wildTimesState "user.a" []).2.2 = 1 ∧
    countCalls 2 (emit passiveEnv acceptAll wildTimesAfterFirst "user.a" []).2.2 = 1 ∧
    aget wildTimesAfterFirst.wildcards "user.*"
      = some [{ listener := 2, pat := "user.*" }] := by
  decide

/- ### C6 -/

/-- C6: the claim fails on the code.  The compiled matcher violates all three claimed
rules on concrete inputs: `user.**` does not match `user.created.extra` (the global
`*`-replacement rewrites the `.*` produced for `**` into `.[^.]*`); `user.*` matches
`userXcreated` (the `.` separator is left unescaped and matches any character); and
`user.?` does not match `user.x` (the `?` is left as a regex quantifier making the
preceding `.` optional instead of matching one non-separator character). -/
theorem compile_pattern_rules_violated :
    wildcardTest "user.**" "user.created.extra" = false ∧
    wildcardTest "user.*" "userXcreated" = true ∧
    wildcardTest "user.?" "user.x" = false ∧
    wildcardTest "user.?" "user" = true := by
  decide

/- ### C7 -/

/-- C7: the claim fails on the code for wildcard registrations.  The TTL timer armed
by `addWildcardListener` runs `() => {}`: after it fires, the listener registered
through `on("user.*", 2, {ttl: 50})` is still stored and a subsequent emission still
invokes it.  The exact-key timer (index.ts line 171) does remove its listener, after
which emission no longer invokes it. -/
theorem wildcard_ttl_timer_is_noop :
    wildcardTtlTimer wildTtlState = wildTtlState ∧
    aget (wildcardTtlTimer wildTtlState).wildcards "user.*"
      = some [{ listener := 2, pat := "user.*" }] ∧
    countCalls 2 (emit passiveEnv acceptAll (wildcardTtlTimer wildTtlState) "user.a" []).2.2
      = 1 ∧
    countCalls 1 (emit passiveEnv acceptAll
      (addListenerTtlTimer "k" 1 (addListener emptyState "k" 1 (some ttlOpts) 0)) "k" []).2.2
      = 0 := by
  decide

/- ### C8 -/

/-- C8: the claim fails on the code.  `addListener('*', 5)` is captured by the
wildcard branch (`key.includes('*')`, index.ts line 118) before the `eventName ===
'*'` catch-all branch can run, so the listener lands in the wildcard store, the
catch-all store stays empty, and — with no other listeners — `emit("x", 1)` returns
`false` without invoking it at all, let alone with the key prepended. -/
theorem star_registration_not_catch_all :
    starState.anyListeners = [] ∧
    aget starState.wildcards "*" = some [{ listener := 5, pat := "*" }] ∧
    emit passiveEnv acceptAll starState "x" [Val.n 1] = (false, starState, []) := by
  decide

/- ### C3 (counterexample) -/

/-- C3: the claim as stated is false.  With `on("a", 1); pipe(7)`, synchronous `emit`
invokes listener 1 and then forwards to the piped target 7, but `emitAsync` resolves
only `listeners("a")` and performs no pipe forwarding (and its listener set can never
include catch-all listeners, which are not part of `listeners()`). -/
theorem emitAsync_omits_pipe_forwarding :
    (emit passiveEnv acceptAll pipedState "a" [Val.n 3]).2.2
      = [TraceEv.call 1 [Val.n 3], TraceEv.pipeCall 7 "a" [Val.n 3]] ∧
    (emitAsync passiveEnv pipedState "a" [Val.n 3]).2.2
      = [TraceEv.call 1 [Val.n 3]] := by
  decide

/- ### C4 (counterexample) -/

/-- C4: the claim as stated is false.  After
`on("k", 1, {priority: -1}); on("k", 2)`, listener 1 (priority −1) is invoked before
listener 2 (priority 0), because the default-priority path appends instead of
performing an ordered insert — and listener 1 is invoked twice, because the
nonzero-priority path on a fresh key seeds the array with the listener, fails the
self-priority comparison, and appends it a second time (index.ts lines 196-215). -/
theorem emit_priority_order_fails_for_negative_priority :
    (emit passiveEnv acceptAll negPriState "k" []).2.2
      = [TraceEv.call 1 [], TraceEv.call 1 [], TraceEv.call 2 []] ∧
    metaPriority negPriState 1 = -1 ∧
    metaPriority negPriState 2 = 0 := by
  decide

/- ### Basic lemmas about the stores and passive invocation -/

theorem aget_aset_self {κ α : Type} [DecidableEq κ] (l : List (κ × α)) (k : κ) (v : α) :
    aget (aset l k v) k = some v := by
  induction l with
  | nil => simp [aget, aset]
  | cons p rest ih =>
    by_cases h : p.1 = k <;> simp [aget, aset, h, ih]

theorem aget_aset_ne {κ α : Type} [DecidableEq κ] (l : List (κ × α)) (k k2 : κ) (v : α)
    (h : k ≠ k2) : aget (aset l k v) k2 = aget l k2 := by
  induction l with
  | nil => simp [aget, aset, h]
  | cons p rest ih =>
    by_cases hp : p.1 = k <;> simp [aget, aset, hp, ih, h]

theorem aget_adel_self {κ α : Type} [DecidableEq κ] (l : List (κ × α)) (k : κ)
    (hnd : (l.map Prod.fst).Nodup) : aget (adel l k) k = none := by
  induction l with
  | nil => simp [aget, adel]
  | cons p rest ih =>
    simp only [List.map_cons, List.nodup_cons] at hnd
    by_cases hp : p.1 = k
    · simp only [adel, if_pos hp]
      subst hp
      clear ih
      induction rest with
      | nil => simp [aget]
      | cons q rest2 ih2 =>
        simp only [List.mem_map] at hnd
        have hq : q.1 ≠ p.1 := fun he => hnd.1 ⟨q, by simp, he⟩
        refine Eq.trans (by simp [aget, fun h => hq h]) (ih2 ⟨?_, hnd.2.sublist (by simp)⟩)
        intro hmem
        rcases List.mem_map.mp hmem with ⟨x, hx, hx2⟩
        exact hnd.1 ⟨x, by simp [hx], hx2⟩
    · simp [adel, hp, aget, ih hnd.2]

theorem invokeListener_passive (s : EmitterState) (i : Nat) (args : List Val)
    (h : metaOriginal s i = none) :
    invokeListener passiveEnv s i args = (s, TraceEv.call i args) := by
  unfold invokeListener
  cases hm : metaGet s i with
  | none => simp [passiveEnv]
  | some m =>
    have ho : m.original = none := by simpa [metaOriginal, hm] using h
    simp [ho, passiveEnv]

theorem runList_passive (s : EmitterState) (ids : List Nat) (args : List Val)
    (h : ∀ i ∈ ids, metaOriginal s i = none) :
    runList passiveEnv s ids args = (s, ids.map (fun i => TraceEv.call i args)) := by
  induction ids with
  | nil => rfl
  | cons i rest ih =>
    have h1 := invokeListener_passive s i args (h i (by simp))
    have h2 := ih (fun j hj => h j (by simp [hj]))
    simp [runList, h1, h2]

/-- With passive, non-wrapper listeners and some matching collection non-empty,
`emitAsync` resolves `true`, leaves the state untouched, and its trace is exactly
`listeners(key)` invoked in order with the raw arguments. -/
theorem emitAsync_passive_eq (s : EmitterState) (key : String) (args : List Val)
    (hw : ∀ i ∈ listenersF s key, metaOriginal s i = none)
    (hne : ¬(listenersF s key = [] ∧ s.anyListeners = [] ∧ s.pipes = []
              ∧ s.wildcards = [])) :
    emitAsync passiveEnv s key args
      = (true, s, (listenersF s key).map (fun i => TraceEv.call i args)) := by
  unfold emitAsync
  have hcond : ¬(((listenersF s key).length == 0 && s.anyListeners.length == 0
      && s.pipes.length == 0 && s.wildcards.length == 0) = true) := by
    intro hc
    simp only [Bool.and_eq_true, beq_iff_eq, List.length_eq_zero] at hc
    exact hne ⟨hc.1.1.1, hc.1.1.2, hc.1.2, hc.2⟩
  rw [if_neg hcond, runList_passive s (listenersF s key) args hw]

/-- With all four collections empty for the key, `emitAsync` resolves `false` and
invokes nothing. -/
theorem emitAsync_empty_eq (s : EmitterState) (key : String) (args : List Val)
    (h1 : listenersF s key = []) (h2 : s.anyListeners = []) (h3 : s.pipes = [])
    (h4 : s.wildcards = []) :
    emitAsync passiveEnv s key args = (false, s, []) := by
  unfold emitAsync
  rw [if_pos]
  simp [h1, h2, h3, h4]

/- ### C10 -/

/-- C10: confirmed.  `emitAsync` only reads the registry through `listeners(key)` and
never detaches anything: provided the resolved listeners are not times-wrappers
(wrappers mutate their own entry when called) and are passive, the state after
`emitAsync` is exactly the state before — in particular the `onceEvents` store, all
metadata and `listenerCount(key)` are unchanged — the registered once-listener `h`
is invoked, and it is still registered afterwards, so a repeated emission invokes it
again.  (Synchronous `emit`, by contrast, deletes the once entry before invocation;
see `waitFor_spec`.) -/
theorem emitAsync_preserves_once_listeners (s : EmitterState) (key : String) (h : Nat)
    (args : List Val)
    (hw : ∀ i ∈ listenersF s key, metaOriginal s i = none)
    (hh : h ∈ entryToList (aget s.onceEvents key)) :
    (emitAsync passiveEnv s key args).2.1 = s ∧
    TraceEv.call h args ∈ (emitAsync passiveEnv s key args).2.2 ∧
    h ∈ entryToList (aget (emitAsync passiveEnv s key args).2.1.onceEvents key) ∧
    listenerCountF (emitAsync passiveEnv s key args).2.1 key = listenerCountF s key := by
  have hmem : h ∈ listenersF s key := by
    unfold listenersF
    exact List.mem_append_left _ (List.mem_append_right _ hh)
  have hne : ¬(listenersF s key = [] ∧ s.anyListeners = [] ∧ s.pipes = []
      ∧ s.wildcards = []) := by
    intro hall
    rw [hall.1] at hmem
    simp at hmem
  rw [emitAsync_passive_eq s key args hw hne]
  exact ⟨rfl, by simpa using List.mem_map_of_mem (fun i => TraceEv.call i args) hmem,
    hh, rfl⟩

/-- Closed witness for `emitAsync_preserves_once_listeners`:
`on("a", 1); once("a", 3); emitAsync("a", 5)`. -/
theorem emitAsync_preserves_once_listeners_witness :
    (emitAsync passiveEnv (onceL (addListener emptyState "a" 1 none 0) "a" 3 none)
        "a" [Val.n 5]).2.1
      = onceL (addListener emptyState "a" 1 none 0) "a" 3 none ∧
    TraceEv.call 3 [Val.n 5]
      ∈ (emitAsync passiveEnv (onceL (addListener emptyState "a" 1 none 0) "a" 3 none)
          "a" [Val.n 5]).2.2 := by
  have := emitAsync_preserves_once_listeners
    (onceL (addListener emptyState "a" 1 none 0) "a" 3 none) "a" 3 [Val.n 5]
    (by decide) (by decide)
  exact ⟨this.1, this.2.1⟩

/- ### C3 (amended) -/

/-- C3 (amended): `emitAsync` resolves and invokes exactly the `listeners(key)` set —
the regular, once and wildcard-matching listeners, in that order, with the raw
argument tuple — and nothing else: catch-all listeners are not invoked and piped
targets are not forwarded to, although non-empty catch-all / pipe / wildcard
collections still make the call resolve `true`. -/
theorem emitAsync_invokes_exactly_listeners (s : EmitterState) (key : String)
    (args : List Val)
    (hw : ∀ i ∈ listenersF s key, metaOriginal s i = none) :
    (emitAsync passiveEnv s key args).2.2
      = (listenersF s key).map (fun i => TraceEv.call i args) ∧
    ((emitAsync passiveEnv s key args).1 = false ↔
      (listenersF s key = [] ∧ s.anyListeners = [] ∧ s.pipes = [] ∧ s.wildcards = [])) := by
  by_cases hall : listenersF s key = [] ∧ s.anyListeners = [] ∧ s.pipes = []
      ∧ s.wildcards = []
  · rw [emitAsync_empty_eq s key args hall.1 hall.2.1 hall.2.2.1 hall.2.2.2]
    refine ⟨by rw [hall.1]; rfl, by simpa using hall⟩
  · rw [emitAsync_passive_eq s key args hw hall]
    exact ⟨rfl, by simpa using hall⟩

/-- Closed witness for `emitAsync_invokes_exactly_listeners`: the piped state
`on("a", 1); pipe(7)` resolves only listener 1 yet returns `true`. -/
theorem emitAsync_invokes_exactly_listeners_witness :
    (emitAsync passiveEnv pipedState "a" [Val.n 3]).2.2
      = (listenersF pipedState "a").map (fun i => TraceEv.call i [Val.n 3]) ∧
    ((emitAsync passiveEnv pipedState "a" [Val.n 3]).1 = false ↔
      (listenersF pipedState "a" = [] ∧ pipedState.anyListeners = []
        ∧ pipedState.pipes = [] ∧ pipedState.wildcards = [])) :=
  emitAsync_invokes_exactly_listeners pipedState "a" [Val.n 3] (by decide)

/- ### Infrastructure for the waitFor theorem (C9) -/

/-- All listener identities reachable from any collection of the emitter. -/
def allListenerIds (s : EmitterState) : List Nat :=
  s.events.foldl (fun a p => a ++ p.2.toList) [] ++
  s.onceEvents.foldl (fun a p => a ++ p.2.toList) [] ++
  s.wildcards.foldl (fun a p => a ++ p.2.map (fun e => e.listener)) [] ++
  s.anyListeners

theorem aget_mem {κ α : Type} [DecidableEq κ] (l : List (κ × α)) (k : κ) (v : α)
    (h : aget l k = some v) : (k, v) ∈ l := by
  induction l with
  | nil => simp [aget] at h
  | cons p rest ih =>
    by_cases hp : p.1 = k
    · simp only [aget, if_pos hp] at h
      obtain ⟨k1, v1⟩ := p
      simp_all
    · simp only [aget, if_neg hp] at h
      exact List.mem_cons_of_mem _ (ih h)

theorem mem_foldl_append {α β : Type} (f : β → List α) (l : List β) (init : List α)
    (x : α) :
    (x ∈ l.foldl (fun a p => a ++ f p) init ↔ x ∈ init ∨ ∃ p ∈ l, x ∈ f p) := by
  induction l generalizing init with
  | nil => simp
  | cons p rest ih =>
    rw [List.foldl_cons, ih]
    simp only [List.mem_append, List.mem_cons]
    constructor
    · rintro (⟨hx | hx⟩ | ⟨q, hq, hx⟩)
      · exact Or.inl hx
      · exact Or.inr ⟨p, Or.inl rfl, hx⟩
      · exact Or.inr ⟨q, Or.inr hq, hx⟩
    · rintro (hx | ⟨q, hq | hq, hx⟩)
      · exact Or.inl (Or.inl hx)
      · exact Or.inl (Or.inr (hq ▸ hx))
      · exact Or.inr ⟨q, hq, hx⟩

theorem mem_wildfold (w : List (String × List WildcardEntry)) (key : String)
    (init : List Nat) (x : Nat) :
    (x ∈ w.foldl
        (fun acc pe =>
          if wildcardTest pe.1 key then acc ++ pe.2.map (fun e => e.listener) else acc)
        init
      ↔ x ∈ init ∨ ∃ pe ∈ w, wildcardTest pe.1 key ∧ ∃ e ∈ pe.2, x = e.listener) := by
  induction w generalizing init with
  | nil => simp
  | cons pe rest ih =>
    rw [List.foldl_cons]
    by_cases ht : wildcardTest pe.1 key
    · rw [if_pos ht, ih]
      simp only [List.mem_append, List.mem_cons, List.mem_map]
      constructor
      · rintro (⟨hx | ⟨e, he, hx⟩⟩ | ⟨q, hq, hqt, e, he, hx⟩)
        · exact Or.inl hx
        · exact Or.inr ⟨pe, Or.inl rfl, ht, e, he, hx.symm⟩
        · exact Or.inr ⟨q, Or.inr hq, hqt, e, he, hx⟩
      · rintro (hx | ⟨q, hq | hq, hqt, e, he, hx⟩)
        · exact Or.inl (Or.inl hx)
        · subst hq; exact Or.inl (Or.inr ⟨e, he, hx.symm⟩)
        · exact Or.inr ⟨q, hq, hqt, e, he, hx⟩
    · rw [if_neg ht, ih]
      simp only [List.mem_cons]
      constructor
      · rintro (hx | ⟨q, hq, hrest⟩)
        · exact Or.inl hx
        · exact Or.inr ⟨q, Or.inr hq, hrest⟩
      · rintro (hx | ⟨q, hq | hq, hqt, hrest⟩)
        · exact Or.inl hx
        · exact absurd (hq ▸ hqt) ht
        · exact Or.inr ⟨q, hq, hqt, hrest⟩

theorem mem_allListenerIds_of_events (s : EmitterState) (k : String) (e : Entry) (i : Nat)
    (he : aget s.events k = some e) (hi : i ∈ e.toList) : i ∈ allListenerIds s := by
  unfold allListenerIds
  refine List.mem_append_left _ (List.mem_append_left _ (List.mem_append_left _ ?_))
  exact (mem_foldl_append (fun p => p.2.toList) s.events [] i).mpr
    (Or.inr ⟨(k, e), aget_mem _ _ _ he, hi⟩)

theorem mem_allListenerIds_of_once (s : EmitterState) (k : String) (e : Entry) (i : Nat)
    (he : aget s.onceEvents k = some e) (hi : i ∈ e.toList) : i ∈ allListenerIds s := by
  unfold allListenerIds
  refine List.mem_append_left _ (List.mem_append_left _ (List.mem_append_right _ ?_))
  exact (mem_foldl_append (fun p => p.2.toList) s.onceEvents [] i).mpr
    (Or.inr ⟨(k, e), aget_mem _ _ _ he, hi⟩)

theorem mem_allListenerIds_of_wild (s : EmitterState)
    (pe : String × List WildcardEntry) (e : WildcardEntry)
    (hpe : pe ∈ s.wildcards) (he : e ∈ pe.2) : e.listener ∈ allListenerIds s := by
  unfold allListenerIds
  refine List.mem_append_left _ (List.mem_append_right _ ?_)
  exact (mem_foldl_append (fun p => p.2.map (fun e => e.listener)) s.wildcards []
    e.listener).mpr (Or.inr ⟨pe, hpe, List.mem_map_of_mem _ he⟩)

theorem mem_keys_aset {κ α : Type} [DecidableEq κ] (l : List (κ × α)) (k k2 : κ) (v : α)
    (h : k2 ∈ (aset l k v).map Prod.fst) : k2 ∈ l.map Prod.fst ∨ k2 = k := by
  induction l with
  | nil => simpa [aset] using h
  | cons p rest ih =>
    by_cases hp : p.1 = k
    · rw [aset, if_pos hp] at h
      simp only [List.map_cons, List.mem_cons] at h ⊢
      rcases h with h | h
      · exact Or.inr h
      · exact Or.inl (Or.inr h)
    · rw [aset, if_neg hp] at h
      simp only [List.map_cons, List.mem_cons] at h ⊢
      rcases h with h | h
      · exact Or.inl (Or.inl h)
      · rcases ih h with h2 | h2
        · exact Or.inl (Or.inr h2)
        · exact Or.inr h2

theorem nodup_keys_aset {κ α : Type} [DecidableEq κ] (l : List (κ × α)) (k : κ) (v : α)
    (h : (l.map Prod.fst).Nodup) : ((aset l k v).map Prod.fst).Nodup := by
  induction l with
  | nil => simp [aset]
  | cons p rest ih =>
    simp only [List.map_cons, List.nodup_cons] at h
    by_cases hp : p.1 = k
    · rw [aset, if_pos hp]
      simp only [List.map_cons, List.nodup_cons]
      exact ⟨hp ▸ h.1, h.2⟩
    · rw [aset, if_neg hp]
      simp only [List.map_cons, List.nodup_cons]
      refine ⟨fun hmem => ?_, ih h.2⟩
      rcases mem_keys_aset rest k p.1 v hmem with h2 | h2
      · exact h.1 h2
      · exact hp h2

/-- No metadata entry carries an `original` back-reference, i.e. no registered
listener is a times-wrapper. -/
def noWrappers (s : EmitterState) : Prop :=
  match s.metadata with
  | none => True
  | some mm => ∀ p ∈ mm, (p.2 : ListenerMeta).original = none

instance (s : EmitterState) : Decidable (noWrappers s) := by
  unfold noWrappers
  cases s.metadata with
  | none => exact inferInstanceAs (Decidable True)
  | some mm => exact inferInstanceAs (Decidable (∀ p ∈ mm, _ = none))

theorem metaOriginal_of_noWrappers (s : EmitterState) (hw : noWrappers s) (i : Nat) :
    metaOriginal s i = none := by
  unfold noWrappers at hw
  unfold metaOriginal metaGet
  cases hm : s.metadata with
  | none => rfl
  | some mm =>
    rw [hm] at hw
    show (aget mm i).bind (fun m => m.original) = none
    cases ha : aget mm i with
    | none => rfl
    | some m => exact hw (i, m) (aget_mem mm i m ha)

theorem mem_adel {κ α : Type} [DecidableEq κ] (l : List (κ × α)) (k : κ) (p : κ × α)
    (h : p ∈ adel l k) : p ∈ l := by
  induction l with
  | nil => simp [adel] at h
  | cons q rest ih =>
    by_cases hq : q.1 = k
    · rw [adel, if_pos hq] at h
      exact List.mem_cons_of_mem _ h
    · rw [adel, if_neg hq] at h
      rcases List.mem_cons.mp h with h | h
      · exact h ▸ List.mem_cons_self _ _
      · exact List.mem_cons_of_mem _ (ih h)

theorem mem_aset {κ α : Type} [DecidableEq κ] (l : List (κ × α)) (k : κ) (v : α)
    (p : κ × α) (h : p ∈ aset l k v) : p ∈ l ∨ p = (k, v) := by
  induction l with
  | nil =>
    rw [aset] at h
    exact Or.inr (List.mem_singleton.mp h)
  | cons q rest ih =>
    by_cases hq : q.1 = k
    · rw [aset, if_pos hq] at h
      rcases List.mem_cons.mp h with h | h
      · exact Or.inr h
      · exact Or.inl (List.mem_cons_of_mem _ h)
    · rw [aset, if_neg hq] at h
      rcases List.mem_cons.mp h with h | h
      · exact Or.inl (h ▸ List.mem_cons_self _ _)
      · rcases ih h with h2 | h2
        · exact Or.inl (List.mem_cons_of_mem _ h2)
        · exact Or.inr h2

theorem noWrappers_cleanup (s : EmitterState) (i : Nat) (hw : noWrappers s) :
    noWrappers (cleanupListener s i) := by
  unfold cleanupListener
  cases hm : s.metadata with
  | none => exact hw
  | some mm =>
    show noWrappers { s with metadata := some (adel mm i) }
    unfold noWrappers at hw ⊢
    rw [hm] at hw
    intro p hp
    exact hw p (mem_adel mm i p hp)

theorem noWrappers_metaSet (s : EmitterState) (i : Nat) (m : ListenerMeta)
    (hw : noWrappers s) (hm : m.original = none) : noWrappers (metaSet s i m) := by
  unfold metaSet
  cases hs : s.metadata with
  | none => exact hw
  | some mm =>
    show noWrappers { s with metadata := some (aset mm i m) }
    unfold noWrappers at hw ⊢
    rw [hs] at hw
    intro p hp
    rcases mem_aset mm i m p hp with h | h
    · exact hw p h
    · rw [h]; exact hm

/-- `cleanupListener` only touches the metadata map. -/
theorem cleanupListener_eq (s : EmitterState) (i : Nat) :
    cleanupListener s i = { s with metadata := (cleanupListener s i).metadata } := by
  unfold cleanupListener
  cases s.metadata <;> rfl

/-- The wholesale `cleanupListener` fold of the once phase only touches metadata and
preserves the absence of wrappers. -/
theorem cleanupFold_spec (ols : List Nat) (s : EmitterState) (hw : noWrappers s) :
    (ols.foldl (fun t i => cleanupListener t i) s)
        = { s with metadata := (ols.foldl (fun t i => cleanupListener t i) s).metadata } ∧
      noWrappers (ols.foldl (fun t i => cleanupListener t i) s) := by
  induction ols generalizing s with
  | nil => exact ⟨rfl, hw⟩
  | cons i rest ih =>
    rw [List.foldl_cons]
    obtain ⟨h1, h2⟩ := ih (cleanupListener s i) (noWrappers_cleanup s i hw)
    constructor
    · rw [h1, cleanupListener_eq s i]
    · exact h2

/-- The metadata value `once` records for an option-free registration. -/
def onceMeta (key : String) : ListenerMeta :=
  { priority := 0, times := -1, timeoutId := 0, original := none, wrapKey := key,
    filter := none }

/-- Evaluating `once(key, fn)` without options: append to the once store and record
default metadata. -/
theorem onceL_noopts_eq (s : EmitterState) (key : String) (fn : Nat) :
    onceL s key fn none
      = { s with onceEvents := entryAppend s.onceEvents key fn,
                 metadata := some (aset (s.metadata.getD []) fn (onceMeta key)) } := by
  cases hm : s.metadata <;>
    simp [onceL, ensureMeta, metaSet, hm, onceMeta]

theorem noWrappers_onceL (s : EmitterState) (key : String) (fn : Nat)
    (hw : noWrappers s) : noWrappers (onceL s key fn none) := by
  rw [onceL_noopts_eq]
  unfold noWrappers at hw ⊢
  intro p hp
  rcases mem_aset (s.metadata.getD []) fn (onceMeta key) p hp with h | h
  · cases hm : s.metadata with
    | none => rw [hm] at h; simp at h
    | some mm =>
      rw [hm] at hw h
      exact hw p h
  · rw [h]; rfl

theorem cleanup_events (s : EmitterState) (i : Nat) :
    (cleanupListener s i).events = s.events := by rw [cleanupListener_eq]

theorem cleanup_onceEvents (s : EmitterState) (i : Nat) :
    (cleanupListener s i).onceEvents = s.onceEvents := by rw [cleanupListener_eq]

theorem cleanup_wildcards (s : EmitterState) (i : Nat) :
    (cleanupListener s i).wildcards = s.wildcards := by rw [cleanupListener_eq]

theorem cleanup_anyListeners (s : EmitterState) (i : Nat) :
    (cleanupListener s i).anyListeners = s.anyListeners := by rw [cleanupListener_eq]

theorem cleanup_pipes (s : EmitterState) (i : Nat) :
    (cleanupListener s i).pipes = s.pipes := by rw [cleanupListener_eq]

theorem cleanup_flags (s : EmitterState) (i : Nat) :
    (cleanupListener s i).flags = s.flags := by rw [cleanupListener_eq]

theorem cleanup_propagationStopped (s : EmitterState) (i : Nat) :
    (cleanupListener s i).propagationStopped = s.propagationStopped := by
  rw [cleanupListener_eq]

/-- `invokeListener` of a non-wrapper passive listener leaves the state unchanged. -/
theorem invokeListener_noWrappers (s : EmitterState) (i : Nat) (args : List Val)
    (hw : noWrappers s) :
    invokeListener passiveEnv s i args = (s, TraceEv.call i args) :=
  invokeListener_passive s i args (metaOriginal_of_noWrappers s hw i)

theorem runList_noWrappers (s : EmitterState) (ids : List Nat) (args : List Val)
    (hw : noWrappers s) :
    runList passiveEnv s ids args = (s, ids.map (fun i => TraceEv.call i args)) :=
  runList_passive s ids args (fun i _ => metaOriginal_of_noWrappers s hw i)

/-- A record update that does not touch the metadata field preserves `noWrappers`. -/
theorem noWrappers_setOnce (s : EmitterState) (oe : List (String × Entry))
    (hw : noWrappers s) : noWrappers { s with onceEvents := oe } := by
  unfold noWrappers at hw ⊢
  exact hw

/-- The outcome facts shared by both once phases: the once entry for the key is
removed, every other collection and the propagation flag are untouched, each
detached listener is invoked once in order, and no wrapper appears. -/
def OncePhaseOutcome (s : EmitterState) (key : String) (ids : List Nat)
    (args : List Val) (out : EmitterState × List TraceEv) : Prop :=
  out.2 = ids.map (fun i => TraceEv.call i args) ∧
  out.1.events = s.events ∧
  out.1.onceEvents = adel s.onceEvents key ∧
  out.1.wildcards = s.wildcards ∧
  out.1.anyListeners = s.anyListeners ∧
  out.1.pipes = s.pipes ∧
  out.1.flags = s.flags ∧
  out.1.propagationStopped = s.propagationStopped ∧
  noWrappers out.1

theorem oncePhaseFast_single (φ : Nat → List Val → Bool) (s : EmitterState)
    (key : String) (h : Nat) (args fargs : List Val)
    (he : aget s.onceEvents key = some (Entry.one h))
    (hfil : checkFilter φ (metaGet s h) fargs = true)
    (hw : noWrappers s) :
    OncePhaseOutcome s key [h] args (oncePhaseFast passiveEnv φ s key args fargs) := by
  have hor : (s.flags &&& HAS_FILTERS == 0 || checkFilter φ (metaGet s h) fargs) = true := by
    rw [hfil]; exact Bool.or_true _
  have hw1 : noWrappers (cleanupListener s h) := noWrappers_cleanup s h hw
  have hw2 : noWrappers
      ({ cleanupListener s h with
          onceEvents := adel (cleanupListener s h).onceEvents key }) :=
    noWrappers_setOnce _ _ hw1
  have hinv := invokeListener_noWrappers
    ({ cleanupListener s h with
        onceEvents := adel (cleanupListener s h).onceEvents key }) h args hw2
  unfold OncePhaseOutcome
  simp only [oncePhaseFast, he, hor, if_true, hinv]
  refine ⟨rfl, ?_, ?_, ?_, ?_, ?_, ?_, ?_, hw2⟩
  · exact cleanup_events s h
  · rw [cleanup_onceEvents s h]
  · exact cleanup_wildcards s h
  · exact cleanup_anyListeners s h
  · exact cleanup_pipes s h
  · exact cleanup_flags s h
  · exact cleanup_propagationStopped s h

theorem oncePhaseFast_many (φ : Nat → List Val → Bool) (s : EmitterState)
    (key : String) (ols : List Nat) (args fargs : List Val)
    (he : aget s.onceEvents key = some (Entry.many ols))
    (hw : noWrappers s) :
    OncePhaseOutcome s key ols args (oncePhaseFast passiveEnv φ s key args fargs) := by
  obtain ⟨h1, h2⟩ := cleanupFold_spec ols s hw
  have hw2 : noWrappers
      ({ ols.foldl (fun t i => cleanupListener t i) s with
          onceEvents := adel (ols.foldl (fun t i => cleanupListener t i) s).onceEvents key }) :=
    noWrappers_setOnce _ _ h2
  have hrun := runList_noWrappers
    ({ ols.foldl (fun t i => cleanupListener t i) s with
        onceEvents := adel (ols.foldl (fun t i => cleanupListener t i) s).onceEvents key })
    ols args hw2
  unfold OncePhaseOutcome
  simp only [oncePhaseFast, he, hrun]
  refine ⟨trivial, ?_, ?_, ?_, ?_, ?_, ?_, ?_, hw2⟩ <;> rw [h1]

theorem oncePhaseSlow_single (s : EmitterState) (key : String) (h : Nat)
    (args : List Val) (hw : noWrappers s) :
    OncePhaseOutcome s key [h] args
      (oncePhaseSlow passiveEnv s key (some (Entry.one h)) args) := by
  have hw1 : noWrappers (cleanupListener s h) := noWrappers_cleanup s h hw
  have hw2 : noWrappers
      ({ cleanupListener s h with
          onceEvents := adel (cleanupListener s h).onceEvents key }) :=
    noWrappers_setOnce _ _ hw1
  have hinv := invokeListener_noWrappers
    ({ cleanupListener s h with
        onceEvents := adel (cleanupListener s h).onceEvents key }) h args hw2
  unfold OncePhaseOutcome
  simp only [oncePhaseSlow, hinv]
  refine ⟨rfl, ?_, ?_, ?_, ?_, ?_, ?_, ?_, hw2⟩
  · exact cleanup_events s h
  · rw [cleanup_onceEvents s h]
  · exact cleanup_wildcards s h
  · exact cleanup_anyListeners s h
  · exact cleanup_pipes s h
  · exact cleanup_flags s h
  · exact cleanup_propagationStopped s h

theorem oncePhaseSlow_many (s : EmitterState) (key : String) (ols : List Nat)
    (args : List Val) (hw : noWrappers s) :
    OncePhaseOutcome s key ols args
      (oncePhaseSlow passiveEnv s key (some (Entry.many ols)) args) := by
  obtain ⟨h1, h2⟩ := cleanupFold_spec ols s hw
  have hw2 : noWrappers
      ({ ols.foldl (fun t i => cleanupListener t i) s with
          onceEvents := adel (ols.foldl (fun t i => cleanupListener t i) s).onceEvents key }) :=
    noWrappers_setOnce _ _ h2
  have hrun := runList_noWrappers
    ({ ols.foldl (fun t i => cleanupListener t i) s with
        onceEvents := adel (ols.foldl (fun t i => cleanupListener t i) s).onceEvents key })
    ols args hw2
  unfold OncePhaseOutcome
  simp only [oncePhaseSlow, hrun]
  refine ⟨trivial, ?_, ?_, ?_, ?_, ?_, ?_, ?_, hw2⟩ <;> rw [h1]

/- ### Origin of trace events in the extras phases (with a false snapshot) -/

theorem extrasWildEntries_origin (φ : Nat → List Val → Bool)
    (mm : Option (List (Nat × ListenerMeta))) (flags : Nat) (name : String)
    (args : List Val) (ac : Nat) (es : List WildcardEntry) :
    (extrasWildEntries φ mm flags false name args ac es).2 = false ∧
    ∀ ev ∈ (extrasWildEntries φ mm flags false name args ac es).1,
      ∃ e ∈ es, ev = TraceEv.call e.listener (args.take ac) := by
  induction es with
  | nil => exact ⟨rfl, by simp [extrasWildEntries]⟩
  | cons e rest ih =>
    rw [extrasWildEntries]
    by_cases h1 : wildcardTest e.pat name
    · simp only [h1, Bool.not_true, if_false]
      by_cases h2 : (flags &&& HAS_FILTERS ≠ 0) && !(checkFilter φ (lookupMetaIn mm e.listener) args)
      · simp only [h2, if_true]
        refine ⟨ih.1, fun ev hev => ?_⟩
        obtain ⟨e2, he2, hx⟩ := ih.2 ev hev
        exact ⟨e2, List.mem_cons_of_mem _ he2, hx⟩
      · simp only [h2, if_false, Bool.false_eq_true, ite_false]
        constructor
        · exact ih.1
        · intro ev hev
          rcases List.mem_cons.mp hev with hev | hev
          · exact ⟨e, List.mem_cons_self _ _, hev⟩
          · obtain ⟨e2, he2, hx⟩ := ih.2 ev hev
            exact ⟨e2, List.mem_cons_of_mem _ he2, hx⟩
    · simp only [h1, Bool.not_false, if_true]
      refine ⟨ih.1, fun ev hev => ?_⟩
      obtain ⟨e2, he2, hx⟩ := ih.2 ev hev
      exact ⟨e2, List.mem_cons_of_mem _ he2, hx⟩

theorem extrasWildLoop_origin (φ : Nat → List Val → Bool)
    (mm : Option (List (Nat × ListenerMeta))) (flags : Nat) (name : String)
    (args : List Val) (ac : Nat) (w : List (String × List WildcardEntry)) :
    (extrasWildLoop φ mm flags false name args ac w).2 = false ∧
    ∀ ev ∈ (extrasWildLoop φ mm flags false name args ac w).1,
      ∃ pe ∈ w, ∃ e ∈ pe.2, ev = TraceEv.call e.listener (args.take ac) := by
  induction w with
  | nil => exact ⟨rfl, by simp [extrasWildLoop]⟩
  | cons pe rest ih =>
    rw [extrasWildLoop]
    obtain ⟨he1, ho1⟩ := extrasWildEntries_origin φ mm flags name args ac pe.2
    simp only [he1, if_false, Bool.false_eq_true, ite_false]
    constructor
    · exact ih.1
    · intro ev hev
      rcases List.mem_append.mp hev with hev | hev
      · obtain ⟨e, he, hx⟩ := ho1 ev hev
        exact ⟨pe, List.mem_cons_self _ _, e, he, hx⟩
      · obtain ⟨q, hq, e, he, hx⟩ := ih.2 ev hev
        exact ⟨q, List.mem_cons_of_mem _ hq, e, he, hx⟩

theorem extrasAnyLoop_origin (evArgs : List Val) (anyL : List Nat) :
    (extrasAnyLoop false evArgs anyL).2 = false ∧
    ∀ ev ∈ (extrasAnyLoop false evArgs anyL).1,
      ∃ l ∈ anyL, ev = TraceEv.call l evArgs := by
  induction anyL with
  | nil => exact ⟨rfl, by simp [extrasAnyLoop]⟩
  | cons l rest ih =>
    rw [extrasAnyLoop]
    simp only [Bool.false_eq_true, ite_false]
    constructor
    · exact ih.1
    · intro ev hev
      rcases List.mem_cons.mp hev with hev | hev
      · exact ⟨l, List.mem_cons_self _ _, hev⟩
      · obtain ⟨l2, hl2, hx⟩ := ih.2 ev hev
        exact ⟨l2, List.mem_cons_of_mem _ hl2, hx⟩

theorem extrasPipeLoop_origin (name : String) (args : List Val) (ac : Nat)
    (pipes : List Nat) :
    (extrasPipeLoop false name args ac pipes).2 = false ∧
    ∀ ev ∈ (extrasPipeLoop false name args ac pipes).1,
      ∃ p ∈ pipes, ev = TraceEv.pipeCall p name (args.take ac) := by
  induction pipes with
  | nil => exact ⟨rfl, by simp [extrasPipeLoop]⟩
  | cons p rest ih =>
    rw [extrasPipeLoop]
    simp only [Bool.false_eq_true, ite_false]
    constructor
    · exact ih.1
    · intro ev hev
      rcases List.mem_cons.mp hev with hev | hev
      · exact ⟨p, List.mem_cons_self _ _, hev⟩
      · obtain ⟨p2, hp2, hx⟩ := ih.2 ev hev
        exact ⟨p2, List.mem_cons_of_mem _ hp2, hx⟩

theorem ifloop_mem {α : Type} (c : Prop) [Decidable c] (x : List α × Bool) (ev : α)
    (h : ev ∈ (if c then x else ([], false)).1) : ev ∈ x.1 := by
  by_cases hc : c
  · rwa [if_pos hc] at h
  · rw [if_neg hc] at h; simp at h

theorem ifloop_snd {α : Type} (c : Prop) [Decidable c] (x : List α × Bool)
    (hx : x.2 = false) : (if c then x else ([], false)).2 = false := by
  by_cases hc : c
  · rwa [if_pos hc]
  · rw [if_neg hc]

/-- Origin of every trace event of `emitExtras` when the snapshot flag is false:
a wildcard-entry invocation, a catch-all invocation, or a pipe forward. -/
theorem emitExtras_origin (φ : Nat → List Val → Bool) (name : String) (args : List Val)
    (ac : Nat) (w : List (String × List WildcardEntry)) (anyL pipes : List Nat)
    (mm : Option (List (Nat × ListenerMeta))) (flags : Nat) :
    ∀ ev ∈ (emitExtras φ name args ac w anyL pipes mm flags false).1,
      (∃ pe ∈ w, ∃ e ∈ pe.2, ev = TraceEv.call e.listener (args.take ac)) ∨
      (∃ l ∈ anyL, ev = TraceEv.call l (Val.s name :: args.take ac)) ∨
      (∃ p ∈ pipes, ev = TraceEv.pipeCall p name (args.take ac)) := by
  intro ev hev
  unfold emitExtras at hev
  have hw2 : (if flags &&& HAS_WILDCARDS ≠ 0
      then extrasWildLoop φ mm flags false name args ac w else ([], false)).2 = false :=
    ifloop_snd _ _ (extrasWildLoop_origin φ mm flags name args ac w).1
  have ha2 : (if flags &&& HAS_ANY ≠ 0
      then extrasAnyLoop false (Val.s name :: args.take ac) anyL else ([], false)).2
      = false :=
    ifloop_snd _ _ (extrasAnyLoop_origin (Val.s name :: args.take ac) anyL).1
  have hp2 : (if flags &&& HAS_PIPES ≠ 0
      then extrasPipeLoop false name args ac pipes else ([], false)).2 = false :=
    ifloop_snd _ _ (extrasPipeLoop_origin name args ac pipes).1
  simp only [] at hev
  rw [hw2, ha2, hp2] at hev
  simp only [Bool.false_eq_true, if_false, ite_false, List.mem_append] at hev
  rcases hev with (hev | hev) | hev
  · exact Or.inl ((extrasWildLoop_origin φ mm flags name args ac w).2 ev
      (ifloop_mem _ _ ev hev))
  · exact Or.inr (Or.inl ((extrasAnyLoop_origin (Val.s name :: args.take ac) anyL).2 ev
      (ifloop_mem _ _ ev hev)))
  · exact Or.inr (Or.inr ((extrasPipeLoop_origin name args ac pipes).2 ev
      (ifloop_mem _ _ ev hev)))

/- ### Trace counting helpers -/

theorem countCalls_append (i : Nat) (a b : List TraceEv) :
    countCalls i (a ++ b) = countCalls i a + countCalls i b := by
  unfold countCalls
  exact List.countP_append _ _ _

theorem countCalls_map_call (i : Nat) (ids : List Nat) (args : List Val) :
    countCalls i (ids.map (fun j => TraceEv.call j args)) = ids.count i := by
  unfold countCalls
  rw [List.countP_map]
  rfl

theorem countCalls_eq_zero (i : Nat) (t : List TraceEv)
    (h : ∀ a, TraceEv.call i a ∉ t) : countCalls i t = 0 := by
  unfold countCalls
  rw [List.countP_eq_zero]
  intro ev hev
  cases ev with
  | call j a =>
    simp only [beq_iff_eq]
    intro hji
    exact h a (hji ▸ hev)
  | pipeCall p n a => simp

/- ### emitTail under a false propagation flag -/

theorem emitTail_spec (φ : Nat → List Val → Bool) (key : String) (args : List Val)
    (al : Nat) (s2 : EmitterState) (t12 : List TraceEv)
    (hpf : s2.propagationStopped = false) :
    ∃ r t3, emitTail φ key args al s2 t12 = (true, r, t12 ++ t3) ∧
      r.events = s2.events ∧ r.onceEvents = s2.onceEvents ∧
      r.wildcards = s2.wildcards ∧ r.anyListeners = s2.anyListeners ∧
      r.pipes = s2.pipes ∧
      (∀ x a, TraceEv.call x a ∈ t3 →
        (∃ pe ∈ s2.wildcards, ∃ e ∈ pe.2, x = e.listener) ∨ x ∈ s2.anyListeners) := by
  unfold emitTail
  rw [hpf]
  simp only [Bool.false_eq_true, if_false, ite_false]
  by_cases hf : s2.flags ≠ 0
  · rw [if_pos hf]
    refine ⟨_, (emitExtras φ key (args.take 5) al s2.wildcards s2.anyListeners s2.pipes
        s2.metadata s2.flags false).1, rfl, rfl, rfl, rfl, rfl, rfl, ?_⟩
    intro x a hx
    rcases emitExtras_origin φ key (args.take 5) al s2.wildcards s2.anyListeners s2.pipes
        s2.metadata s2.flags (TraceEv.call x a) hx with h | h | h
    · obtain ⟨pe, hpe, e, he, hx2⟩ := h
      refine Or.inl ⟨pe, hpe, e, he, ?_⟩
      cases hx2
      rfl
    · obtain ⟨l, hl, hx2⟩ := h
      cases hx2
      exact Or.inr hl
    · obtain ⟨p, _, hx2⟩ := h
      cases hx2
  · rw [if_neg hf]
    exact ⟨s2, [], by rw [List.append_nil], rfl, rfl, rfl, rfl, rfl,
      fun x a hx => absurd hx (by simp)⟩

/- ### Entry-store helpers -/

theorem aget_entryAppend_self (store : List (String × Entry)) (key : String) (fn : Nat) :
    aget (entryAppend store key fn) key
      = some (match aget store key with
              | none => Entry.one fn
              | some e => Entry.many (e.toList ++ [fn])) := by
  unfold entryAppend
  cases h : aget store key with
  | none => exact aget_aset_self store key _
  | some e => cases e <;> exact aget_aset_self store key _

theorem nodup_keys_entryAppend (store : List (String × Entry)) (key : String) (fn : Nat)
    (h : (store.map Prod.fst).Nodup) :
    ((entryAppend store key fn).map Prod.fst).Nodup := by
  unfold entryAppend
  cases aget store key with
  | none => exact nodup_keys_aset store key _ h
  | some e => cases e <;> exact nodup_keys_aset store key _ h

/- ### Evaluating the regular phase and the emit dispatch -/

theorem fastRegular_step (φ : Nat → List Val → Bool) (s1 : EmitterState) (g : Nat)
    (args fargs : List Val) (hw1 : noWrappers s1) :
    (if (s1.flags &&& HAS_FILTERS ≠ 0) && !(checkFilter φ (metaGet s1 g) fargs)
       then (s1, ([] : List TraceEv))
       else ((invokeListener passiveEnv s1 g args).1,
             [(invokeListener passiveEnv s1 g args).2]))
    = (s1, if (s1.flags &&& HAS_FILTERS ≠ 0) && !(checkFilter φ (metaGet s1 g) fargs)
            then [] else [TraceEv.call g args]) := by
  by_cases hc : ((s1.flags &&& HAS_FILTERS ≠ 0) && !(checkFilter φ (metaGet s1 g) fargs))
      = true
  · rw [if_pos hc, if_pos hc]
  · rw [if_neg hc, if_neg hc, invokeListener_noWrappers s1 g args hw1]

theorem emit_fast_eq (φ : Nat → List Val → Bool) (s : EmitterState) (key : String)
    (g : Nat) (args : List Val)
    (hev : aget s.events key = some (Entry.one g))
    (hw : noWrappers s) (hpf : s.propagationStopped = false) :
    emit passiveEnv φ s key args
      = emitTail φ key args args.length
          (oncePhaseFast passiveEnv φ s key args (args.take 5)).1
          ((if (s.flags &&& HAS_FILTERS ≠ 0) && !(checkFilter φ (metaGet s g) (args.take 5))
              then [] else [TraceEv.call g args])
            ++ (oncePhaseFast passiveEnv φ s key args (args.take 5)).2) := by
  simp only [emit, hev, fastRegular_step φ s g args (args.take 5) hw, hpf,
    Bool.false_eq_true, if_false, ite_false]

theorem emit_slow_none_eq (φ : Nat → List Val → Bool) (s : EmitterState) (key : String)
    (oe : Entry) (args : List Val)
    (hev : aget s.events key = none)
    (holE : aget s.onceEvents key = some oe) :
    emit passiveEnv φ s key args
      = emitTail φ key args args.length
          (oncePhaseSlow passiveEnv s key (some oe) args).1
          ([] ++ (oncePhaseSlow passiveEnv s key (some oe) args).2) := by
  simp only [emit, hev, holE, Option.isNone_none, Option.isNone_some, Bool.false_and,
    Bool.and_false, Bool.false_eq_true, if_false, ite_false]

theorem emit_slow_many_eq (φ : Nat → List Val → Bool) (s : EmitterState) (key : String)
    (ls : List Nat) (oe : Entry) (args : List Val)
    (hev : aget s.events key = some (Entry.many ls))
    (holE : aget s.onceEvents key = some oe)
    (hw : noWrappers s) :
    emit passiveEnv φ s key args
      = emitTail φ key args args.length
          (oncePhaseSlow passiveEnv s key (some oe) args).1
          (ls.map (fun i => TraceEv.call i args)
            ++ (oncePhaseSlow passiveEnv s key (some oe) args).2) := by
  simp only [emit, hev, holE, runList_noWrappers s ls args hw, Option.isNone_none,
    Option.isNone_some, Bool.false_and, Bool.and_false, Bool.false_eq_true, if_false,
    ite_false]

/- ### removeListener helpers for the timeout path -/

/-- The once entry after `entryAppend` (the shape `once(key, fn)` produces). -/
def appendEntry (e : Option Entry) (fn : Nat) : Entry :=
  match e with
  | none => Entry.one fn
  | some e2 => Entry.many (e2.toList ++ [fn])

theorem entryToList_appendEntry (e : Option Entry) (fn : Nat) :
    (appendEntry e fn).toList = entryToList e ++ [fn] := by
  cases e with
  | none => rfl
  | some e2 => rfl

theorem aget_entryAppend_eq (store : List (String × Entry)) (key : String) (fn : Nat) :
    aget (entryAppend store key fn) key = some (appendEntry (aget store key) fn) := by
  rw [aget_entryAppend_self]
  cases aget store key <;> rfl

theorem removeLastBy_none (p : Nat → Bool) (l : List Nat)
    (h : ∀ x ∈ l, p x = false) : removeLastBy p l = none := by
  induction l with
  | nil => rfl
  | cons x rest ih =>
    simp only [removeLastBy, ih (fun y hy => h y (List.mem_cons_of_mem _ hy)),
      h x (List.mem_cons_self _ _)]
    simp

theorem removeLastWild_none (es : List WildcardEntry) (fn : Nat)
    (h : ∀ e ∈ es, e.listener ≠ fn) : removeLastWild es fn = none := by
  induction es with
  | nil => rfl
  | cons e rest ih =>
    simp only [removeLastWild, ih (fun y hy => h y (List.mem_cons_of_mem _ hy))]
    simp [h e (List.mem_cons_self _ _)]

theorem findIdxQ_none (p : Nat → Bool) (l : List Nat) (i : Nat)
    (h : ∀ x ∈ l, p x = false) : List.findIdx? p l i = none := by
  induction l generalizing i with
  | nil => rfl
  | cons x rest ih =>
    rw [List.findIdx?, h x (List.mem_cons_self _ _)]
    simp only [Bool.false_eq_true, if_false, ite_false]
    exact ih _ (fun y hy => h y (List.mem_cons_of_mem _ hy))

theorem findIdxQ_append_last (l : List Nat) (z : Nat) (i : Nat)
    (h : ∀ x ∈ l, (x == z) = false) :
    List.findIdx? (fun x => x == z) (l ++ [z]) i = some (i + l.length) := by
  induction l generalizing i with
  | nil => simp [List.findIdx?]
  | cons y rest ih =>
    rw [List.cons_append, List.findIdx?, h y (List.mem_cons_self _ _)]
    simp only [Bool.false_eq_true, if_false, ite_false]
    rw [ih (i + 1) (fun x hx => h x (List.mem_cons_of_mem _ hx))]
    congr 1
    simp only [List.length_cons]
    omega

theorem eraseIdx_append_last (l : List Nat) (z : Nat) :
    (l ++ [z]).eraseIdx l.length = l := by
  induction l with
  | nil => rfl
  | cons y rest ih =>
    show y :: ((rest ++ [z]).eraseIdx rest.length) = y :: rest
    rw [ih]

theorem entryToList_restoreEntry (store : List (String × Entry)) (key : String)
    (l : List Nat) (hnd : (store.map Prod.fst).Nodup) :
    entryToList (aget (restoreEntry store key l) key) = l := by
  match l with
  | [] =>
    show entryToList (aget (adel store key) key) = []
    rw [aget_adel_self store key hnd]
    rfl
  | [x] =>
    show entryToList (aget (aset store key (Entry.one x)) key) = [x]
    rw [aget_aset_self]
    rfl
  | x :: y :: rest =>
    show entryToList (aget (aset store key (Entry.many (x :: y :: rest))) key)
        = x :: y :: rest
    rw [aget_aset_self]
    rfl

theorem not_mem_listenersF (r : EmitterState) (key : String) (h : Nat)
    (h1 : h ∉ entryToList (aget r.events key))
    (h2 : h ∉ entryToList (aget r.onceEvents key))
    (h3 : ∀ pe ∈ r.wildcards, ∀ e ∈ pe.2, e.listener ≠ h) :
    h ∉ listenersF r key := by
  unfold listenersF
  intro hmem
  rcases List.mem_append.mp hmem with hmem2 | hmem2
  · rcases List.mem_append.mp hmem2 with hmem3 | hmem3
    · exact h1 hmem3
    · exact h2 hmem3
  · rcases (mem_wildfold r.wildcards key [] h).mp hmem2 with h0 | ⟨pe, hpe, _, e, he, hx⟩
    · simp at h0
    · exact h3 pe hpe e he hx.symm

theorem removeFromEvents_fresh (s1 : EmitterState) (key : String) (h : Nat)
    (hw1 : noWrappers s1)
    (hfe : h ∉ entryToList (aget s1.events key)) :
    removeFromEvents s1 key h = s1 := by
  unfold removeFromEvents
  cases hevk : aget s1.events key with
  | none => rfl
  | some e =>
    cases e with
    | one g =>
      have hg : ¬(g = h) := by
        intro hgh
        apply hfe
        rw [hevk]
        exact hgh ▸ List.mem_cons_self g []
      show (if g = h then
              let t := cleanupListener s1 h
              { t with events := adel t.events key }
            else s1) = s1
      rw [if_neg hg]
    | many ls =>
      have hls : ∀ x ∈ ls, (x == h) = false := by
        intro x hx
        simp only [beq_eq_false_iff_ne, ne_eq]
        intro hxh
        apply hfe
        rw [hevk]
        exact (show (h : Nat) ∈ ls from hxh ▸ hx)
      show (match ls.findIdx? (fun x => x == h) with
            | some idx =>
              let t := cleanupListener s1 h
              { t with events := restoreEntry t.events key (ls.eraseIdx idx) }
            | none =>
              match s1.metadata with
              | some _ =>
                match removeLastBy (fun x => metaOriginal s1 x == some h) ls with
                | some (w, l2) =>
                  let t := cleanupListener s1 w
                  { t with events := restoreEntry t.events key l2 }
                | none => s1
              | none => s1) = s1
      rw [findIdxQ_none _ ls 0 hls]
      cases hm : s1.metadata with
      | none => rfl
      | some mm =>
        show (match removeLastBy (fun x => metaOriginal s1 x == some h) ls with
              | some (w, l2) =>
                let t := cleanupListener s1 w
                { t with events := restoreEntry t.events key l2 }
              | none => s1) = s1
        rw [removeLastBy_none _ ls (fun x _ => by
          rw [metaOriginal_of_noWrappers s1 hw1 x]
          rfl)]

theorem removeFromOnce_append (s1 : EmitterState) (key : String) (h : Nat)
    (oldE : Option Entry)
    (honce : aget s1.onceEvents key = some (appendEntry oldE h))
    (hnotold : h ∉ entryToList oldE)
    (hkeys : (s1.onceEvents.map Prod.fst).Nodup) :
    (removeFromOnce s1 key h).events = s1.events ∧
    (removeFromOnce s1 key h).wildcards = s1.wildcards ∧
    entryToList (aget (removeFromOnce s1 key h).onceEvents key) = entryToList oldE := by
  cases oldE with
  | none =>
    have honce2 : aget s1.onceEvents key = some (Entry.one h) := honce
    have heq : removeFromOnce s1 key h
        = { cleanupListener s1 h with
            onceEvents := adel (cleanupListener s1 h).onceEvents key } := by
      unfold removeFromOnce
      rw [honce2]
      show (if h = h then
              let t := cleanupListener s1 h
              { t with onceEvents := adel t.onceEvents key }
            else s1) = _
      rw [if_pos rfl]
    rw [heq]
    refine ⟨cleanup_events s1 h, cleanup_wildcards s1 h, ?_⟩
    show entryToList (aget (adel (cleanupListener s1 h).onceEvents key) key) = []
    rw [cleanup_onceEvents s1 h, aget_adel_self s1.onceEvents key hkeys]
    rfl
  | some e2 =>
    have honce2 : aget s1.onceEvents key = some (Entry.many (e2.toList ++ [h])) := honce
    have hfi : (e2.toList ++ [h]).findIdx? (fun x => x == h)
        = some e2.toList.length := by
      have := findIdxQ_append_last e2.toList h 0 (fun x hx => by
        simp only [beq_eq_false_iff_ne, ne_eq]
        intro hxh
        exact hnotold (hxh ▸ hx))
      simpa using this
    have heq : removeFromOnce s1 key h
        = { cleanupListener s1 h with
            onceEvents := restoreEntry (cleanupListener s1 h).onceEvents key e2.toList } := by
      unfold removeFromOnce
      rw [honce2]
      show (match (e2.toList ++ [h]).findIdx? (fun x => x == h) with
            | some idx =>
              let t := cleanupListener s1 h
              { t with onceEvents :=
                  restoreEntry t.onceEvents key ((e2.toList ++ [h]).eraseIdx idx) }
            | none => s1) = _
      rw [hfi]
      show ({ cleanupListener s1 h with
              onceEvents := restoreEntry (cleanupListener s1 h).onceEvents key
                ((e2.toList ++ [h]).eraseIdx e2.toList.length) }) = _
      rw [eraseIdx_append_last]
    rw [heq]
    refine ⟨cleanup_events s1 h, cleanup_wildcards s1 h, ?_⟩
    show entryToList
        (aget (restoreEntry (cleanupListener s1 h).onceEvents key e2.toList) key)
        = entryToList (some e2)
    rw [cleanup_onceEvents s1 h,
      entryToList_restoreEntry s1.onceEvents key e2.toList hkeys]
    rfl

/-- `removeListener(key, h)` on a state whose once entry for `key` is
`appendEntry old h` with `h` fresh everywhere else: the events and wildcard stores
are untouched and the once entry reverts to `old`'s listeners. -/
theorem removeListener_after_append (s1 : EmitterState) (key : String) (h : Nat)
    (oldE : Option Entry)
    (hw1 : noWrappers s1)
    (honce : aget s1.onceEvents key = some (appendEntry oldE h))
    (hnotold : h ∉ entryToList oldE)
    (hfe : h ∉ entryToList (aget s1.events key))
    (hfw : ∀ pe ∈ s1.wildcards, ∀ e ∈ pe.2, e.listener ≠ h)
    (hkeys : (s1.onceEvents.map Prod.fst).Nodup) :
    (removeListenerFn s1 key h).events = s1.events ∧
    (removeListenerFn s1 key h).wildcards = s1.wildcards ∧
    entryToList (aget (removeListenerFn s1 key h).onceEvents key)
      = entryToList oldE := by
  have hrest : removeListenerFn s1 key h = removeListenerRest s1 key h := by
    unfold removeListenerFn
    cases hwk : aget s1.wildcards key with
    | none => rfl
    | some entries =>
      show (match removeLastWild entries h with
            | some entries2 =>
              let t := cleanupListener s1 h
              if entries2.isEmpty then
                let w2 := adel t.wildcards key
                { t with wildcards := w2,
                         flags := if w2.isEmpty then clearFlags t.flags HAS_WILDCARDS
                                  else t.flags }
              else { t with wildcards := aset t.wildcards key entries2 }
            | none => removeListenerRest s1 key h) = removeListenerRest s1 key h
      rw [removeLastWild_none entries h
        (fun e he => hfw (key, entries) (aget_mem _ _ _ hwk) e he)]
  rw [hrest]
  unfold removeListenerRest
  rw [removeFromEvents_fresh s1 key h hw1 hfe]
  exact removeFromOnce_append s1 key h oldE honce hnotold hkeys

/-- Facts about `emitTail` applied to a once-phase outcome that invoked the handler
`h` exactly once: the emission returns true, delivers to `h` exactly once, and
leaves no registration of `h` for the key. -/
theorem tail_assembled (φ : Nat → List Val → Bool) (key : String) (args : List Val)
    (al : Nat) (s1 : EmitterState) (out : EmitterState × List TraceEv)
    (tr1 : List TraceEv) (h : Nat) (olsIds : List Nat)
    (hout : OncePhaseOutcome s1 key olsIds args out)
    (hpf : s1.propagationStopped = false)
    (htr1 : countCalls h tr1 = 0)
    (hcnt : olsIds.count h = 1)
    (hmemols : h ∈ olsIds)
    (hfe1 : h ∉ entryToList (aget s1.events key))
    (hfw1 : ∀ pe ∈ s1.wildcards, ∀ e ∈ pe.2, e.listener ≠ h)
    (hfa1 : h ∉ s1.anyListeners)
    (hkeys1 : (s1.onceEvents.map Prod.fst).Nodup) :
    countCalls h (emitTail φ key args al out.1 (tr1 ++ out.2)).2.2 = 1 ∧
    TraceEv.call h args ∈ (emitTail φ key args al out.1 (tr1 ++ out.2)).2.2 ∧
    (emitTail φ key args al out.1 (tr1 ++ out.2)).1 = true ∧
    h ∉ listenersF (emitTail φ key args al out.1 (tr1 ++ out.2)).2.1 key := by
  obtain ⟨ht2, he2, ho2, hw2, ha2, hp2, hf2, hpf2, hnw2⟩ := hout
  obtain ⟨r, t3, htail, hre, hro, hrw, hra, hrp, horig⟩ :=
    emitTail_spec φ key args al out.1 (tr1 ++ out.2) (by rw [hpf2, hpf])
  rw [htail]
  have ht3zero : countCalls h t3 = 0 := by
    apply countCalls_eq_zero
    intro a hmem
    rcases horig h a hmem with hcase | hcase
    · obtain ⟨pe, hpe, e, he, hx⟩ := hcase
      rw [hw2] at hpe
      exact hfw1 pe hpe e he hx.symm
    · rw [ha2] at hcase
      exact hfa1 hcase
  refine ⟨?_, ?_, rfl, ?_⟩
  · rw [countCalls_append, countCalls_append, htr1, ht2, countCalls_map_call,
      hcnt, ht3zero]
  · refine List.mem_append_left _ (List.mem_append_right _ ?_)
    rw [ht2]
    exact List.mem_map_of_mem _ hmemols
  · apply not_mem_listenersF
    · rw [hre, he2]
      exact hfe1
    · rw [hro, ho2, aget_adel_self s1.onceEvents key hkeys1]
      simp [entryToList]
    · rw [hrw, hw2]
      exact hfw1

/-- Both once phases applied to the entry `appendEntry old h` produced by
`once(key, h)` on a prior entry `old`. -/
theorem oncePhaseSlow_append (s1 : EmitterState) (key : String) (h : Nat)
    (iold : Option Entry) (args : List Val) (hw1 : noWrappers s1) :
    OncePhaseOutcome s1 key (entryToList iold ++ [h]) args
      (oncePhaseSlow passiveEnv s1 key (some (appendEntry iold h)) args) := by
  cases iold with
  | none => exact oncePhaseSlow_single s1 key h args hw1
  | some e2 => exact oncePhaseSlow_many s1 key (e2.toList ++ [h]) args hw1

theorem oncePhaseFast_append (φ : Nat → List Val → Bool) (s1 : EmitterState)
    (key : String) (h : Nat) (iold : Option Entry) (args : List Val)
    (hw1 : noWrappers s1)
    (ho : aget s1.onceEvents key = some (appendEntry iold h))
    (hfil : checkFilter φ (metaGet s1 h) (args.take 5) = true) :
    OncePhaseOutcome s1 key (entryToList iold ++ [h]) args
      (oncePhaseFast passiveEnv φ s1 key args (args.take 5)) := by
  cases iold with
  | none => exact oncePhaseFast_single φ s1 key h args (args.take 5) ho hfil hw1
  | some e2 =>
    exact oncePhaseFast_many φ s1 key (e2.toList ++ [h]) args (args.take 5) ho hw1

/- ### C9 -/

/-- C9: confirmed.  `waitFor(key, timeout)` registers its handler through
`once(key, handler)`.  If the key is emitted first, the handler is invoked exactly
once, with exactly the emitted argument tuple (resolving the promise with it), the
emission returns true, and the handler is no longer attached for the key afterwards
(synchronous `emit` detaches once-listeners before invoking them).  If the timeout
timer fires first, it removes the handler — so no listener from this `waitFor`
remains attached — and rejects with a message spelling out both the event name and
the configured duration.  Hypotheses: the handler is a fresh callable, no registered
listener is a times-wrapper, listeners do not call `stopPropagation`, the
propagation flag is clear (see `propagation_flag_sticky_across_emits` for what
happens otherwise), and the once store has no duplicate keys (true of every
reachable state). -/
theorem waitFor_spec (s : EmitterState) (key : String) (h : Nat) (args : List Val)
    (d : Nat) (φ : Nat → List Val → Bool)
    (hfresh : h ∉ allListenerIds s)
    (hstop : s.propagationStopped = false)
    (hw : noWrappers s)
    (hkeys : (s.onceEvents.map Prod.fst).Nodup) :
    (countCalls h (emit passiveEnv φ (waitForRegister s key h) key args).2.2 = 1 ∧
     TraceEv.call h args ∈ (emit passiveEnv φ (waitForRegister s key h) key args).2.2 ∧
     (emit passiveEnv φ (waitForRegister s key h) key args).1 = true ∧
     h ∉ listenersF (emit passiveEnv φ (waitForRegister s key h) key args).2.1 key) ∧
    (h ∉ listenersF (waitForTimeoutTimer key h (waitForRegister s key h)) key ∧
     (∃ u v, waitForTimeoutMessage key d = u ++ key ++ v) ∧
     (∃ u v, waitForTimeoutMessage key d = u ++ Nat.repr d ++ v)) := by
  have hreg : waitForRegister s key h
      = { s with onceEvents := entryAppend s.onceEvents key h,
                 metadata := some (aset (s.metadata.getD []) h (onceMeta key)) } :=
    onceL_noopts_eq s key h
  have hs1e : (waitForRegister s key h).events = s.events := by rw [hreg]
  have hs1w : (waitForRegister s key h).wildcards = s.wildcards := by rw [hreg]
  have hs1a : (waitForRegister s key h).anyListeners = s.anyListeners := by rw [hreg]
  have hs1pf : (waitForRegister s key h).propagationStopped = false := by
    rw [hreg]; exact hstop
  have hs1o : aget (waitForRegister s key h).onceEvents key
      = some (appendEntry (aget s.onceEvents key) h) := by
    rw [hreg]; exact aget_entryAppend_eq s.onceEvents key h
  have hw1 : noWrappers (waitForRegister s key h) := noWrappers_onceL s key h hw
  have hs1keys : ((waitForRegister s key h).onceEvents.map Prod.fst).Nodup := by
    rw [hreg]; exact nodup_keys_entryAppend s.onceEvents key h hkeys
  have hmeta_h : metaGet (waitForRegister s key h) h = some (onceMeta key) := by
    rw [hreg]
    show aget (aset (s.metadata.getD []) h (onceMeta key)) h = some (onceMeta key)
    exact aget_aset_self _ h _
  have hfe : h ∉ entryToList (aget s.events key) := by
    intro hmem
    cases hae : aget s.events key with
    | none => rw [hae] at hmem; simp [entryToList] at hmem
    | some e =>
      rw [hae] at hmem
      exact hfresh (mem_allListenerIds_of_events s key e h hae hmem)
  have hfo : h ∉ entryToList (aget s.onceEvents key) := by
    intro hmem
    cases hae : aget s.onceEvents key with
    | none => rw [hae] at hmem; simp [entryToList] at hmem
    | some e =>
      rw [hae] at hmem
      exact hfresh (mem_allListenerIds_of_once s key e h hae hmem)
  have hfw : ∀ pe ∈ s.wildcards, ∀ e ∈ pe.2, e.listener ≠ h := by
    intro pe hpe e he heq
    exact hfresh (heq ▸ mem_allListenerIds_of_wild s pe e hpe he)
  have hfa : h ∉ s.anyListeners := by
    intro hm
    exact hfresh (List.mem_append_right _ hm)
  have hfe1 : h ∉ entryToList (aget (waitForRegister s key h).events key) := by
    rw [hs1e]; exact hfe
  have hfw1 : ∀ pe ∈ (waitForRegister s key h).wildcards, ∀ e ∈ pe.2,
      e.listener ≠ h := by
    rw [hs1w]; exact hfw
  have hfa1 : h ∉ (waitForRegister s key h).anyListeners := by
    rw [hs1a]; exact hfa
  have hcnt : (entryToList (aget s.onceEvents key) ++ [h]).count h = 1 := by
    rw [List.count_append, List.count_eq_zero.mpr hfo]
    simp
  have hmemols : h ∈ entryToList (aget s.onceEvents key) ++ [h] := by simp
  have hfil : checkFilter φ (metaGet (waitForRegister s key h) h) (args.take 5)
      = true := by rw [hmeta_h]; rfl
  constructor
  · -- emission outcome
    cases hae : aget s.events key with
    | none =>
      have hev1 : aget (waitForRegister s key h).events key = none := by
        rw [hs1e]; exact hae
      rw [emit_slow_none_eq φ (waitForRegister s key h) key
        (appendEntry (aget s.onceEvents key) h) args hev1 hs1o]
      exact tail_assembled φ key args args.length (waitForRegister s key h)
        (oncePhaseSlow passiveEnv (waitForRegister s key h) key
          (some (appendEntry (aget s.onceEvents key) h)) args)
        [] h (entryToList (aget s.onceEvents key) ++ [h])
        (oncePhaseSlow_append (waitForRegister s key h) key h
          (aget s.onceEvents key) args hw1)
        hs1pf rfl hcnt hmemols hfe1 hfw1 hfa1 hs1keys
    | some e =>
      cases e with
      | one g =>
        have hev1 : aget (waitForRegister s key h).events key
            = some (Entry.one g) := by rw [hs1e]; exact hae
        have hgne : h ≠ g := by
          intro heq
          apply hfe
          rw [hae]
          exact heq ▸ List.mem_cons_self h []
        have htr1 : countCalls h
            (if ((waitForRegister s key h).flags &&& HAS_FILTERS ≠ 0)
                && !(checkFilter φ (metaGet (waitForRegister s key h) g) (args.take 5))
             then [] else [TraceEv.call g args]) = 0 := by
          apply countCalls_eq_zero
          intro a hm
          by_cases hc : (((waitForRegister s key h).flags &&& HAS_FILTERS ≠ 0)
              && !(checkFilter φ (metaGet (waitForRegister s key h) g) (args.take 5)))
              = true
          · rw [if_pos hc] at hm
            simp at hm
          · rw [if_neg hc] at hm
            have := List.mem_singleton.mp hm
            injection this with h1 h2
            exact hgne h1
        rw [emit_fast_eq φ (waitForRegister s key h) key g args hev1 hw1 hs1pf]
        exact tail_assembled φ key args args.length (waitForRegister s key h)
          (oncePhaseFast passiveEnv φ (waitForRegister s key h) key args (args.take 5))
          _ h (entryToList (aget s.onceEvents key) ++ [h])
          (oncePhaseFast_append φ (waitForRegister s key h) key h
            (aget s.onceEvents key) args hw1 hs1o hfil)
          hs1pf htr1 hcnt hmemols hfe1 hfw1 hfa1 hs1keys
      | many ls =>
        have hev1 : aget (waitForRegister s key h).events key
            = some (Entry.many ls) := by rw [hs1e]; exact hae
        have htr1 : countCalls h (ls.map (fun i => TraceEv.call i args)) = 0 := by
          rw [countCalls_map_call]
          apply List.count_eq_zero.mpr
          intro hm
          apply hfe
          rw [hae]
          exact hm
        rw [emit_slow_many_eq φ (waitForRegister s key h) key ls
          (appendEntry (aget s.onceEvents key) h) args hev1 hs1o hw1]
        exact tail_assembled φ key args args.length (waitForRegister s key h)
          (oncePhaseSlow passiveEnv (waitForRegister s key h) key
            (some (appendEntry (aget s.onceEvents key) h)) args)
          (ls.map (fun i => TraceEv.call i args)) h
          (entryToList (aget s.onceEvents key) ++ [h])
          (oncePhaseSlow_append (waitForRegister s key h) key h
            (aget s.onceEvents key) args hw1)
          hs1pf htr1 hcnt hmemols hfe1 hfw1 hfa1 hs1keys
  · -- timeout outcome
    have htimeout := removeListener_after_append (waitForRegister s key h) key h
      (aget s.onceEvents key) hw1 hs1o hfo hfe1 hfw1 hs1keys
    refine ⟨?_, ?_, ?_⟩
    · show h ∉ listenersF (removeListenerFn (waitForRegister s key h) key h) key
      apply not_mem_listenersF
      · rw [htimeout.1, hs1e]
        exact hfe
      · intro hm
        rw [htimeout.2.2] at hm
        exact hfo hm
      · rw [htimeout.2.1, hs1w]
        exact hfw
    · exact ⟨"Timeout waiting for event \u0022",
        "\u0022 after " ++ Nat.repr d ++ "ms", by
          simp [waitForTimeoutMessage, String.append_assoc]⟩
    · exact ⟨"Timeout waiting for event \u0022" ++ key ++ "\u0022 after ", "ms", by
        simp [waitForTimeoutMessage, String.append_assoc]⟩

/-- Closed witness for `waitFor_spec`: waiting for `"a"` (handler 9, timeout 100)
on an emitter with one prior regular listener. -/
theorem waitFor_spec_witness :
    (countCalls 9 (emit passiveEnv acceptAll
        (waitForRegister (addListener emptyState "a" 1 none 0) "a" 9) "a" [Val.n 5]).2.2
      = 1 ∧
     TraceEv.call 9 [Val.n 5] ∈ (emit passiveEnv acceptAll
        (waitForRegister (addListener emptyState "a" 1 none 0) "a" 9) "a" [Val.n 5]).2.2 ∧
     (emit passiveEnv acceptAll
        (waitForRegister (addListener emptyState "a" 1 none 0) "a" 9) "a" [Val.n 5]).1
      = true ∧
     9 ∉ listenersF (emit passiveEnv acceptAll
        (waitForRegister (addListener emptyState "a" 1 none 0) "a" 9) "a" [Val.n 5]).2.1
        "a") ∧
    (9 ∉ listenersF (waitForTimeoutTimer "a" 9
        (waitForRegister (addListener emptyState "a" 1 none 0) "a" 9)) "a" ∧
     (∃ u v, waitForTimeoutMessage "a" 100 = u ++ "a" ++ v) ∧
     (∃ u v, waitForTimeoutMessage "a" 100 = u ++ Nat.repr 100 ++ v)) :=
  waitFor_spec (addListener emptyState "a" 1 none 0) "a" 9 [Val.n 5] 100 acceptAll
    (by decide) (by decide) (by decide) (by decide)

/- ### Infrastructure for the priority-order theorem (C4) -/

/-- Specification-side stable descending insert: place the new element before the
first existing element of strictly lower priority (the rule of index.ts
lines 206-215). -/
def specInsert (l : List (Nat × Int)) (x : Nat × Int) : List (Nat × Int) :=
  match l with
  | [] => [x]
  | y :: ys => if x.2 > y.2 then x :: y :: ys else y :: specInsert ys x

/-- The registration options used in the priority theorem: either none, or a bare
priority. -/
def regOptions (r : Nat × Option Int) : Option LOptions :=
  r.2.map (fun p => { priority := some p, times := none, ttl := none, filter := none })

def regPriority (r : Nat × Option Int) : Int := r.2.getD 0

def applyReg (k : String) (s : EmitterState) (r : Nat × Option Int) : EmitterState :=
  addListener s k r.1 (regOptions r) 0

def regState (k : String) (rs : List (Nat × Option Int)) : EmitterState :=
  rs.foldl (applyReg k) emptyState

/-- The order the spec demands: fold the stable descending insert over the
registration sequence. -/
def specOrder (rs : List (Nat × Option Int)) : List (Nat × Int) :=
  rs.foldl (fun al r => specInsert al (r.1, regPriority r)) []

theorem mem_specInsert (l : List (Nat × Int)) (x z : Nat × Int)
    (h : z ∈ specInsert l x) : z ∈ l ∨ z = x := by
  induction l with
  | nil => simpa [specInsert] using h
  | cons y ys ih =>
    rw [specInsert] at h
    by_cases hc : x.2 > y.2
    · rw [if_pos hc] at h
      rcases List.mem_cons.mp h with h | h
      · exact Or.inr h
      · exact Or.inl h
    · rw [if_neg hc] at h
      rcases List.mem_cons.mp h with h | h
      · exact Or.inl (h ▸ List.mem_cons_self _ _)
      · rcases ih h with h2 | h2
        · exact Or.inl (List.mem_cons_of_mem _ h2)
        · exact Or.inr h2

theorem specInsert_sorted (l : List (Nat × Int)) (x : Nat × Int)
    (h : l.Pairwise (fun a b => b.2 ≤ a.2)) :
    (specInsert l x).Pairwise (fun a b => b.2 ≤ a.2) := by
  induction l with
  | nil => simp [specInsert]
  | cons y ys ih =>
    rw [List.pairwise_cons] at h
    rw [specInsert]
    by_cases hc : x.2 > y.2
    · rw [if_pos hc]
      refine List.Pairwise.cons ?_ (List.Pairwise.cons h.1 h.2)
      intro z hz
      rcases List.mem_cons.mp hz with hz | hz
      · rw [hz]; exact le_of_lt hc
      · exact le_trans (h.1 z hz) (le_of_lt hc)
    · rw [if_neg hc]
      refine List.Pairwise.cons ?_ (ih h.2)
      intro z hz
      rcases mem_specInsert ys x z hz with hz | hz
      · exact h.1 z hz
      · rw [hz]; exact le_of_not_lt hc

theorem specInsert_filter_eq (l : List (Nat × Int)) (x : Nat × Int) (p : Int)
    (hs : l.Pairwise (fun a b => b.2 ≤ a.2)) (hx : x.2 = p) :
    (specInsert l x).filter (fun z => z.2 == p)
      = l.filter (fun z => z.2 == p) ++ [x] := by
  induction l with
  | nil => simp [specInsert, List.filter, hx]
  | cons y ys ih =>
    rw [List.pairwise_cons] at hs
    rw [specInsert]
    by_cases hc : x.2 > y.2
    · rw [if_pos hc]
      have hyp : (y.2 == p) = false := by
        simp only [beq_eq_false_iff_ne, ne_eq]
        intro he
        rw [← hx] at he
        exact absurd he.symm (ne_of_gt hc)
      have hys : ys.filter (fun z => z.2 == p) = [] := by
        rw [List.filter_eq_nil_iff]
        intro z hz
        simp only [beq_iff_eq]
        intro he
        have h2 := hs.1 z hz
        rw [he, ← hx] at h2
        exact absurd hc (not_lt_of_le h2)
      have hxb : (x.2 == p) = true := by simpa using hx
      rw [List.filter_cons, List.filter_cons, hxb, hyp, hys]
      simp
    · rw [if_neg hc]
      rw [List.filter_cons, List.filter_cons, ih hs.2]
      cases hyb : (y.2 == p) <;> simp [hyb]

theorem specInsert_filter_ne (l : List (Nat × Int)) (x : Nat × Int) (p : Int)
    (hx : ¬(x.2 = p)) :
    (specInsert l x).filter (fun z => z.2 == p) = l.filter (fun z => z.2 == p) := by
  have hxb : (x.2 == p) = false := by
    simp only [beq_eq_false_iff_ne, ne_eq]
    exact hx
  induction l with
  | nil => simp [specInsert, List.filter, hxb]
  | cons y ys ih =>
    rw [specInsert]
    by_cases hc : x.2 > y.2
    · rw [if_pos hc, List.filter_cons, List.filter_cons, hxb]
      simp only [Bool.false_eq_true, if_false, ite_false]
    · rw [if_neg hc, List.filter_cons, List.filter_cons, ih]

theorem specInsert_zero_append (l : List (Nat × Int)) (i : Nat)
    (h : ∀ x ∈ l, 0 ≤ x.2) : specInsert l (i, (0 : Int)) = l ++ [(i, (0 : Int))] := by
  induction l with
  | nil => rfl
  | cons y ys ih =>
    rw [specInsert]
    have : ¬((0 : Int) > y.2) := not_lt_of_le (h y (List.mem_cons_self _ _))
    rw [if_neg this, ih (fun x hx => h x (List.mem_cons_of_mem _ hx))]
    rfl

theorem mem_map_fst_specInsert (l : List (Nat × Int)) (x : Nat × Int) (z : Nat)
    (h : z ∈ (specInsert l x).map Prod.fst) : z ∈ l.map Prod.fst ∨ z = x.1 := by
  rcases List.mem_map.mp h with ⟨w, hw, hz⟩
  rcases mem_specInsert l x w hw with hw2 | hw2
  · exact Or.inl (hz ▸ List.mem_map_of_mem _ hw2)
  · exact Or.inr (by rw [← hz, hw2])

theorem nodup_map_fst_specInsert (l : List (Nat × Int)) (x : Nat × Int)
    (h : (l.map Prod.fst).Nodup) (hx : x.1 ∉ l.map Prod.fst) :
    ((specInsert l x).map Prod.fst).Nodup := by
  induction l with
  | nil => simp [specInsert]
  | cons y ys ih =>
    simp only [List.map_cons, List.nodup_cons] at h
    rw [specInsert]
    by_cases hc : x.2 > y.2
    · rw [if_pos hc]
      simp only [List.map_cons, List.nodup_cons]
      refine ⟨?_, h.1, h.2⟩
      intro hmem
      rcases List.mem_cons.mp hmem with hmem | hmem
      · exact hx (by simp [hmem])
      · exact hx (by simp only [List.map_cons, List.mem_cons]; exact Or.inr hmem)
    · rw [if_neg hc]
      simp only [List.map_cons, List.nodup_cons]
      have hxy : x.1 ∉ ys.map Prod.fst ∧ ¬(x.1 = y.1) := by
        constructor
        · intro hmem
          exact hx (by simp only [List.map_cons, List.mem_cons]; exact Or.inr hmem)
        · intro he
          exact hx (by simp [he])
      refine ⟨?_, ih h.2 hxy.1⟩
      intro hmem
      rcases mem_map_fst_specInsert ys x y.1 hmem with hmem | hmem
      · exact h.1 hmem
      · exact hxy.2 hmem.symm

theorem specOrder_foldl_sorted (rs : List (Nat × Option Int))
    (al : List (Nat × Int)) (h : al.Pairwise (fun a b => b.2 ≤ a.2)) :
    (rs.foldl (fun a r => specInsert a (r.1, regPriority r)) al).Pairwise
      (fun a b => b.2 ≤ a.2) := by
  induction rs generalizing al with
  | nil => exact h
  | cons r rest ih =>
    rw [List.foldl_cons]
    exact ih _ (specInsert_sorted al _ h)

theorem specOrder_foldl_filter (rs : List (Nat × Option Int))
    (al : List (Nat × Int)) (p : Int) (h : al.Pairwise (fun a b => b.2 ≤ a.2)) :
    (rs.foldl (fun a r => specInsert a (r.1, regPriority r)) al).filter
        (fun z => z.2 == p)
      = al.filter (fun z => z.2 == p)
        ++ (rs.filter (fun r => regPriority r == p)).map (fun r => (r.1, regPriority r)) := by
  induction rs generalizing al with
  | nil => simp
  | cons r rest ih =>
    rw [List.foldl_cons, List.filter_cons]
    by_cases hp : regPriority r = p
    · have hpb : (regPriority r == p) = true := by simpa using hp
      rw [hpb]
      simp only [if_true, ite_true, List.map_cons]
      rw [ih _ (specInsert_sorted al _ h),
        specInsert_filter_eq al (r.1, regPriority r) p h hp]
      simp
    · have hpb : (regPriority r == p) = false := by simpa using hp
      rw [hpb]
      simp only [Bool.false_eq_true, if_false, ite_false]
      rw [ih _ (specInsert_sorted al _ h),
        specInsert_filter_ne al (r.1, regPriority r) p hp]

theorem ensureMeta_eq (s : EmitterState) :
    ensureMeta s = { s with metadata := (ensureMeta s).metadata } := by
  unfold ensureMeta
  cases s.metadata <;> rfl

theorem metaSet_eq (s : EmitterState) (i : Nat) (m : ListenerMeta) :
    metaSet s i m = { s with metadata := (metaSet s i m).metadata } := by
  unfold metaSet
  cases s.metadata <;> rfl

theorem metaSet_events (s : EmitterState) (i : Nat) (m : ListenerMeta) :
    (metaSet s i m).events = s.events := by rw [metaSet_eq]

theorem metaSet_ensureMeta_events (s : EmitterState) (i : Nat) (m : ListenerMeta) :
    (metaSet (ensureMeta s) i m).events = s.events := by
  rw [metaSet_events, ensureMeta_eq]

theorem metaGet_ensureMeta (s : EmitterState) (i : Nat) :
    metaGet (ensureMeta s) i = metaGet s i := by
  unfold ensureMeta metaGet
  cases hm : s.metadata with
  | none => rfl
  | some mm => rw [hm]

theorem ensureMeta_metadata_some (s : EmitterState) :
    ∃ mm, (ensureMeta s).metadata = some mm := by
  unfold ensureMeta
  cases hm : s.metadata with
  | none => exact ⟨[], rfl⟩
  | some mm => exact ⟨mm, hm⟩

theorem metaGet_metaSet_of_some (s : EmitterState) (i : Nat) (m : ListenerMeta)
    (mm : List (Nat × ListenerMeta)) (h : s.metadata = some mm) :
    metaGet (metaSet s i m) i = some m := by
  unfold metaSet metaGet
  rw [h]
  show aget (aset mm i m) i = some m
  exact aget_aset_self mm i m

theorem metaGet_metaSet_ne (s : EmitterState) (i j : Nat) (m : ListenerMeta)
    (hij : i ≠ j) : metaGet (metaSet s i m) j = metaGet s j := by
  unfold metaSet metaGet
  cases hm : s.metadata with
  | none => rw [hm]
  | some mm =>
    show aget (aset mm i m) j = aget mm j
    exact aget_aset_ne mm i j m hij

theorem noWrappers_ensureMeta (s : EmitterState) (hw : noWrappers s) :
    noWrappers (ensureMeta s) := by
  unfold ensureMeta
  cases hm : s.metadata with
  | none =>
    show noWrappers { s with metadata := some [] }
    unfold noWrappers
    intro p hp
    simp at hp
  | some mm => exact hw

/-- A record update of the events store preserves `noWrappers`. -/
theorem noWrappers_setEvents (s : EmitterState) (ev : List (String × Entry))
    (hw : noWrappers s) : noWrappers { s with events := ev } := by
  unfold noWrappers at hw ⊢
  exact hw

/-- The metadata entry `addListener` records for a bare-priority registration. -/
def priMeta (k : String) (p : Int) : ListenerMeta :=
  { priority := p, times := -1, timeoutId := 0, original := none, wrapKey := k,
    filter := none }

theorem beq_star_false (k : String) (hk1 : strContains k '*' = false) :
    (k == "*") = false := by
  rw [beq_eq_false_iff_ne]
  intro he
  rw [he] at hk1
  exact absurd hk1 (by decide)

theorem addListener_noopts_eq (s : EmitterState) (k : String) (fn : Nat)
    (hk1 : strContains k '*' = false) (hk2 : strContains k '?' = false) :
    addListener s k fn none 0 = { s with events := entryAppend s.events k fn } := by
  unfold addListener
  rw [hk1, hk2, beq_star_false k hk1]
  simp

theorem addListener_somePri_eq (s : EmitterState) (k : String) (fn : Nat) (p : Int)
    (hk1 : strContains k '*' = false) (hk2 : strContains k '?' = false) :
    addListener s k fn
        (some { priority := some p, times := none, ttl := none, filter := none }) 0
      = (if p == 0
         then { metaSet (ensureMeta s) fn (priMeta k p) with
                events := entryAppend (metaSet (ensureMeta s) fn (priMeta k p)).events
                  k fn }
         else
           match aget (metaSet (ensureMeta s) fn (priMeta k p)).events k with
           | none =>
             { metaSet (ensureMeta s) fn (priMeta k p) with
               events := aset (metaSet (ensureMeta s) fn (priMeta k p)).events k
                 (Entry.many (insertByPriority (metaSet (ensureMeta s) fn (priMeta k p))
                   [fn] fn p)) }
           | some (Entry.one g) =>
             { metaSet (ensureMeta s) fn (priMeta k p) with
               events := aset (metaSet (ensureMeta s) fn (priMeta k p)).events k
                 (Entry.many (insertByPriority (metaSet (ensureMeta s) fn (priMeta k p))
                   [g] fn p)) }
           | some (Entry.many l) =>
             { metaSet (ensureMeta s) fn (priMeta k p) with
               events := aset (metaSet (ensureMeta s) fn (priMeta k p)).events k
                 (Entry.many (insertByPriority (metaSet (ensureMeta s) fn (priMeta k p))
                   l fn p)) }) := by
  unfold addListener
  rw [hk1, hk2, beq_star_false k hk1]
  have hne : ¬((0 : Int) < (-1 : Int)) := by decide
  simp only [Bool.or_self, Bool.false_eq_true, ite_false, Option.getD_some,
    Option.getD_none, hne, Option.isSome_none, priMeta]
  rfl

theorem insertByPriority_spec (s2 : EmitterState) (al : List (Nat × Int)) (i : Nat)
    (p : Int) (hpri : ∀ x ∈ al, metaPriority s2 x.1 = x.2) :
    insertByPriority s2 (al.map Prod.fst) i p = (specInsert al (i, p)).map Prod.fst := by
  induction al with
  | nil => rfl
  | cons y ys ih =>
    rw [List.map_cons]
    rw [insertByPriority, hpri y (List.mem_cons_self _ _), specInsert]
    by_cases hc : p > y.2
    · rw [if_pos hc, if_pos hc]
      simp
    · rw [if_neg hc, if_neg hc,
        ih (fun x hx => hpri x (List.mem_cons_of_mem _ hx))]
      simp

theorem specInsert_ne_nil (l : List (Nat × Int)) (x : Nat × Int) :
    specInsert l x ≠ [] := by
  cases l with
  | nil => simp [specInsert]
  | cons y ys =>
    rw [specInsert]
    by_cases hc : x.2 > y.2
    · rw [if_pos hc]; simp
    · rw [if_neg hc]; simp

/-- The first registration of a sequence (if any) carries the default priority 0;
a nonzero-priority registration on a fresh key takes the seed-and-rescan path that
stores the listener twice, so the ordering theorem excludes it. -/
def firstReg0 : List (Nat × Option Int) → Bool
  | [] => true
  | r :: _ => regPriority r == 0

theorem specInsert_mem_self (l : List (Nat × Int)) (x : Nat × Int) :
    x ∈ specInsert l x := by
  induction l with
  | nil => simp [specInsert]
  | cons y ys ih =>
    rw [specInsert]
    by_cases hc : x.2 > y.2
    · rw [if_pos hc]; exact List.mem_cons_self _ _
    · rw [if_neg hc]; exact List.mem_cons_of_mem _ ih

theorem specInsert_mem_of_mem (l : List (Nat × Int)) (x z : Nat × Int)
    (h : z ∈ l) : z ∈ specInsert l x := by
  induction l with
  | nil => simp at h
  | cons y ys ih =>
    rw [specInsert]
    by_cases hc : x.2 > y.2
    · rw [if_pos hc]; exact List.mem_cons_of_mem _ h
    · rw [if_neg hc]
      rcases List.mem_cons.mp h with h | h
      · exact h ▸ List.mem_cons_self _ _
      · exact List.mem_cons_of_mem _ (ih h)

/-- The invariant of a single-key registration history: the stored entry lists the
annotated sequence `al`, metadata priorities agree with the annotations, priorities
are non-negative, identities are distinct, unregistered identities carry no
metadata, and no other feature of the emitter is in play. -/
structure RegInv (k : String) (s : EmitterState) (al : List (Nat × Int)) : Prop where
  entry_eq : entryToList (aget s.events k) = al.map Prod.fst
  pri_eq : ∀ x ∈ al, metaPriority s x.1 = x.2
  pri_nonneg : ∀ x ∈ al, 0 ≤ x.2
  fst_nodup : (al.map Prod.fst).Nodup
  meta_none : ∀ i, i ∉ al.map Prod.fst → metaGet s i = none
  once_nil : s.onceEvents = []
  flags_zero : s.flags = 0
  prop_false : s.propagationStopped = false
  any_nil : s.anyListeners = []
  pipes_nil : s.pipes = []
  nw : noWrappers s

theorem regInv_empty (k : String) : RegInv k emptyState [] := by
  refine ⟨rfl, ?_, ?_, by simp, ?_, rfl, rfl, rfl, rfl, rfl, ?_⟩
  · intro x hx; simp at hx
  · intro x hx; simp at hx
  · intro i _; rfl
  · unfold noWrappers; trivial

/-- Both append paths of `addListener` (no options, or options with priority 0)
extend the invariant with a priority-0 element at the end. -/
theorem regInv_appendPath (k : String) (s : EmitterState) (al : List (Nat × Int))
    (i : Nat) (s2 : EmitterState)
    (hs2ev : s2.events = s.events)
    (hs2on : s2.onceEvents = s.onceEvents)
    (hs2f : s2.flags = s.flags)
    (hs2pp : s2.propagationStopped = s.propagationStopped)
    (hs2any : s2.anyListeners = s.anyListeners)
    (hs2p : s2.pipes = s.pipes)
    (hs2nw : noWrappers s2)
    (hgprio : metaPriority s2 i = 0)
    (hget_ne : ∀ j, j ≠ i → metaGet s2 j = metaGet s j)
    (hinv : RegInv k s al)
    (hfresh : i ∉ al.map Prod.fst) :
    RegInv k { s2 with events := entryAppend s2.events k i } (al ++ [(i, (0 : Int))]) := by
  refine ⟨?_, ?_, ?_, ?_, ?_, ?_, ?_, ?_, ?_, ?_, ?_⟩
  · show entryToList (aget (entryAppend s2.events k i) k) = _
    rw [hs2ev, aget_entryAppend_eq]
    show (appendEntry (aget s.events k) i).toList = _
    rw [entryToList_appendEntry, hinv.entry_eq]
    simp
  · intro x hx
    rcases List.mem_append.mp hx with hx2 | hx2
    · show metaPriority s2 x.1 = x.2
      unfold metaPriority
      rw [hget_ne x.1 (fun he => hfresh (he ▸ List.mem_map_of_mem _ hx2))]
      exact hinv.pri_eq x hx2
    · rw [List.mem_singleton.mp hx2]
      exact hgprio
  · intro x hx
    rcases List.mem_append.mp hx with hx2 | hx2
    · exact hinv.pri_nonneg x hx2
    · rw [List.mem_singleton.mp hx2]
  · rw [List.map_append]
    rw [List.nodup_append]
    refine ⟨hinv.fst_nodup, List.nodup_singleton _, ?_⟩
    intro a ha hb
    simp only [List.map_cons, List.map_nil, List.mem_singleton] at hb
    exact hfresh (hb ▸ ha)
  · intro j hj
    rw [List.map_append] at hj
    simp only [List.mem_append, List.map_cons, List.map_nil, List.mem_singleton,
      not_or] at hj
    show metaGet s2 j = none
    rw [hget_ne j hj.2]
    exact hinv.meta_none j hj.1
  · show s2.onceEvents = []
    rw [hs2on]; exact hinv.once_nil
  · show s2.flags = 0
    rw [hs2f]; exact hinv.flags_zero
  · show s2.propagationStopped = false
    rw [hs2pp]; exact hinv.prop_false
  · show s2.anyListeners = []
    rw [hs2any]; exact hinv.any_nil
  · show s2.pipes = []
    rw [hs2p]; exact hinv.pipes_nil
  · exact noWrappers_setEvents s2 _ hs2nw

/-- The ordered-insert path of `addListener` extends the invariant with the
spec-side stable insert. -/
theorem regInv_insertPath (k : String) (s : EmitterState) (al : List (Nat × Int))
    (i : Nat) (p : Int) (s2 : EmitterState) (arr : List Nat)
    (_hs2ev : s2.events = s.events)
    (hs2on : s2.onceEvents = s.onceEvents)
    (hs2f : s2.flags = s.flags)
    (hs2pp : s2.propagationStopped = s.propagationStopped)
    (hs2any : s2.anyListeners = s.anyListeners)
    (hs2p : s2.pipes = s.pipes)
    (hs2nw : noWrappers s2)
    (hget_self : metaGet s2 i = some (priMeta k p))
    (hget_ne : ∀ j, j ≠ i → metaGet s2 j = metaGet s j)
    (hinv : RegInv k s al)
    (hfresh : i ∉ al.map Prod.fst)
    (hp : 0 ≤ p)
    (harr : arr = (specInsert al (i, p)).map Prod.fst) :
    RegInv k { s2 with events := aset s2.events k (Entry.many arr) }
      (specInsert al (i, p)) := by
  refine ⟨?_, ?_, ?_, ?_, ?_, ?_, ?_, ?_, ?_, ?_, ?_⟩
  · show entryToList (aget (aset s2.events k (Entry.many arr)) k) = _
    rw [aget_aset_self, harr]
    rfl
  · intro x hx
    rcases mem_specInsert al (i, p) x hx with hx2 | hx2
    · show metaPriority s2 x.1 = x.2
      unfold metaPriority
      rw [hget_ne x.1 (fun he => hfresh (he ▸ List.mem_map_of_mem _ hx2))]
      exact hinv.pri_eq x hx2
    · rw [hx2]
      show metaPriority s2 i = p
      unfold metaPriority
      rw [hget_self]
      rfl
  · intro x hx
    rcases mem_specInsert al (i, p) x hx with hx2 | hx2
    · exact hinv.pri_nonneg x hx2
    · rw [hx2]; exact hp
  · exact nodup_map_fst_specInsert al (i, p) hinv.fst_nodup hfresh
  · intro j hj
    have hji : j ≠ i := by
      intro he
      apply hj
      rw [he]
      exact List.mem_map_of_mem _ (specInsert_mem_self al (i, p))
    show metaGet s2 j = none
    rw [hget_ne j hji]
    apply hinv.meta_none
    intro hmem
    apply hj
    rcases List.mem_map.mp hmem with ⟨w, hw, hwe⟩
    exact hwe ▸ List.mem_map_of_mem _ (specInsert_mem_of_mem al (i, p) w hw)
  · show s2.onceEvents = []
    rw [hs2on]; exact hinv.once_nil
  · show s2.flags = 0
    rw [hs2f]; exact hinv.flags_zero
  · show s2.propagationStopped = false
    rw [hs2pp]; exact hinv.prop_false
  · show s2.anyListeners = []
    rw [hs2any]; exact hinv.any_nil
  · show s2.pipes = []
    rw [hs2p]; exact hinv.pipes_nil
  · exact noWrappers_setEvents s2 _ hs2nw

theorem metaSet_ensureMeta_once (s : EmitterState) (i : Nat) (m : ListenerMeta) :
    (metaSet (ensureMeta s) i m).onceEvents = s.onceEvents := by
  rw [metaSet_eq, ensureMeta_eq]

theorem metaSet_ensureMeta_flags (s : EmitterState) (i : Nat) (m : ListenerMeta) :
    (metaSet (ensureMeta s) i m).flags = s.flags := by
  rw [metaSet_eq, ensureMeta_eq]

theorem metaSet_ensureMeta_prop (s : EmitterState) (i : Nat) (m : ListenerMeta) :
    (metaSet (ensureMeta s) i m).propagationStopped = s.propagationStopped := by
  rw [metaSet_eq, ensureMeta_eq]

theorem metaSet_ensureMeta_any (s : EmitterState) (i : Nat) (m : ListenerMeta) :
    (metaSet (ensureMeta s) i m).anyListeners = s.anyListeners := by
  rw [metaSet_eq, ensureMeta_eq]

theorem metaSet_ensureMeta_pipes (s : EmitterState) (i : Nat) (m : ListenerMeta) :
    (metaSet (ensureMeta s) i m).pipes = s.pipes := by
  rw [metaSet_eq, ensureMeta_eq]

/-- One registration step preserves the invariant: the state moves by `applyReg`,
the annotated sequence by the spec-side stable insert. -/
theorem applyReg_inv (k : String) (s : EmitterState) (al : List (Nat × Int))
    (r : Nat × Option Int)
    (hk1 : strContains k '*' = false) (hk2 : strContains k '?' = false)
    (hinv : RegInv k s al) (hfresh : r.1 ∉ al.map Prod.fst)
    (hpri : 0 ≤ regPriority r) (hz : al = [] → regPriority r = 0) :
    RegInv k (applyReg k s r) (specInsert al (r.1, regPriority r)) := by
  cases hro : r.2 with
  | none =>
    have hrp : regPriority r = 0 := by unfold regPriority; rw [hro]; rfl
    have heq : applyReg k s r = { s with events := entryAppend s.events k r.1 } := by
      show addListener s k r.1 (regOptions r) 0 = _
      unfold regOptions
      rw [hro]
      exact addListener_noopts_eq s k r.1 hk1 hk2
    have hgp : metaPriority s r.1 = 0 := by
      unfold metaPriority
      rw [hinv.meta_none r.1 hfresh]
      rfl
    rw [heq, hrp, specInsert_zero_append al r.1 hinv.pri_nonneg]
    exact regInv_appendPath k s al r.1 s rfl rfl rfl rfl rfl rfl hinv.nw hgp
      (fun _ _ => rfl) hinv hfresh
  | some p =>
    have hrp : regPriority r = p := by unfold regPriority; rw [hro]; rfl
    have hp : 0 ≤ p := by rw [← hrp]; exact hpri
    have heq0 : applyReg k s r
        = addListener s k r.1
            (some { priority := some p, times := none, ttl := none, filter := none })
            0 := by
      show addListener s k r.1 (regOptions r) 0 = _
      unfold regOptions
      rw [hro]
      rfl
    rw [heq0, addListener_somePri_eq s k r.1 p hk1 hk2, hrp]
    set s2 := metaSet (ensureMeta s) r.1 (priMeta k p) with hs2def
    have hs2ev : s2.events = s.events := by
      rw [hs2def]; exact metaSet_ensureMeta_events s r.1 (priMeta k p)
    have hs2on : s2.onceEvents = s.onceEvents := by
      rw [hs2def]; exact metaSet_ensureMeta_once s r.1 (priMeta k p)
    have hs2f : s2.flags = s.flags := by
      rw [hs2def]; exact metaSet_ensureMeta_flags s r.1 (priMeta k p)
    have hs2pp : s2.propagationStopped = s.propagationStopped := by
      rw [hs2def]; exact metaSet_ensureMeta_prop s r.1 (priMeta k p)
    have hs2any : s2.anyListeners = s.anyListeners := by
      rw [hs2def]; exact metaSet_ensureMeta_any s r.1 (priMeta k p)
    have hs2p : s2.pipes = s.pipes := by
      rw [hs2def]; exact metaSet_ensureMeta_pipes s r.1 (priMeta k p)
    have hs2nw : noWrappers s2 := by
      rw [hs2def]
      exact noWrappers_metaSet (ensureMeta s) r.1 (priMeta k p)
        (noWrappers_ensureMeta s hinv.nw) rfl
    have hget_self : metaGet s2 r.1 = some (priMeta k p) := by
      obtain ⟨mm, hmm⟩ := ensureMeta_metadata_some s
      rw [hs2def]
      exact metaGet_metaSet_of_some (ensureMeta s) r.1 (priMeta k p) mm hmm
    have hget_ne : ∀ j, j ≠ r.1 → metaGet s2 j = metaGet s j := by
      intro j hj
      rw [hs2def,
        metaGet_metaSet_ne (ensureMeta s) r.1 j (priMeta k p) (fun he => hj he.symm),
        metaGet_ensureMeta]
    by_cases hp0 : p = 0
    · rw [if_pos (show (p == 0) = true by simpa using hp0), hp0,
        specInsert_zero_append al r.1 hinv.pri_nonneg]
      have hgp : metaPriority s2 r.1 = 0 := by
        unfold metaPriority
        rw [hget_self]
        show p = 0
        exact hp0
      exact regInv_appendPath k s al r.1 s2 hs2ev hs2on hs2f hs2pp hs2any hs2p
        hs2nw hgp hget_ne hinv hfresh
    · rw [if_neg (show ¬((p == 0) = true) by simpa using hp0)]
      have hpr2 : ∀ x ∈ al, metaPriority s2 x.1 = x.2 := by
        intro x hx
        unfold metaPriority
        rw [hget_ne x.1 (fun he => hfresh (he ▸ List.mem_map_of_mem _ hx))]
        exact hinv.pri_eq x hx
      cases hae : aget s2.events k with
      | none =>
        -- the seed-and-rescan path (a first registration with nonzero priority) is
        -- excluded by `hz`: here the entry is empty, so `al = []` forces priority 0
        have h0 : al.map Prod.fst = [] := by
          rw [← hinv.entry_eq, ← hs2ev, hae]
          rfl
        have hal : al = [] := List.map_eq_nil_iff.mp h0
        exact absurd (hrp ▸ hz hal) hp0
      | some e =>
        cases e with
        | one g =>
          have hml : al.map Prod.fst = [g] := by
            rw [← hinv.entry_eq, ← hs2ev, hae]
            rfl
          have harr : insertByPriority s2 [g] r.1 p
              = (specInsert al (r.1, p)).map Prod.fst := by
            rw [← hml]
            exact insertByPriority_spec s2 al r.1 p hpr2
          exact regInv_insertPath k s al r.1 p s2 (insertByPriority s2 [g] r.1 p)
            hs2ev hs2on hs2f hs2pp hs2any hs2p hs2nw hget_self hget_ne hinv hfresh
            hp harr
        | many l =>
          have hml : al.map Prod.fst = l := by
            rw [← hinv.entry_eq, ← hs2ev, hae]
            rfl
          have harr : insertByPriority s2 l r.1 p
              = (specInsert al (r.1, p)).map Prod.fst := by
            rw [← hml]
            exact insertByPriority_spec s2 al r.1 p hpr2
          exact regInv_insertPath k s al r.1 p s2 (insertByPriority s2 l r.1 p)
            hs2ev hs2on hs2f hs2pp hs2any hs2p hs2nw hget_self hget_ne hinv hfresh
            hp harr

/-- Folding a registration sequence from an invariant state preserves the
invariant. -/
theorem regFold_inv (k : String) (hk1 : strContains k '*' = false)
    (hk2 : strContains k '?' = false) :
    ∀ (rs : List (Nat × Option Int)) (s : EmitterState) (al : List (Nat × Int)),
      RegInv k s al →
      ((rs.map Prod.fst).Nodup) →
      (∀ r ∈ rs, r.1 ∉ al.map Prod.fst) →
      (∀ r ∈ rs, 0 ≤ regPriority r) →
      (al = [] → firstReg0 rs = true) →
      RegInv k (rs.foldl (applyReg k) s)
        (rs.foldl (fun a r => specInsert a (r.1, regPriority r)) al) := by
  intro rs
  induction rs with
  | nil => intro s al hinv _ _ _ _; exact hinv
  | cons r rest ih =>
    intro s al hinv hnd hdisj hnn hz0
    rw [List.foldl_cons, List.foldl_cons]
    rw [List.map_cons] at hnd
    apply ih
    · refine applyReg_inv k s al r hk1 hk2 hinv (hdisj r (List.mem_cons_self _ _))
        (hnn r (List.mem_cons_self _ _)) ?_
      intro h
      have h2 := hz0 h
      simpa [firstReg0] using h2
    · exact (List.nodup_cons.mp hnd).2
    · intro r2 hr2 hmem
      rcases mem_map_fst_specInsert al (r.1, regPriority r) r2.1 hmem with h | h
      · exact hdisj r2 (List.mem_cons_of_mem _ hr2) h
      · exact (List.nodup_cons.mp hnd).1 (h ▸ List.mem_map_of_mem _ hr2)
    · intro r2 hr2
      exact hnn r2 (List.mem_cons_of_mem _ hr2)
    · intro h
      exact absurd h (specInsert_ne_nil al (r.1, regPriority r))

/-- The state built by registering `rs` on a fresh emitter satisfies the invariant
with annotation `specOrder rs`. -/
theorem regState_inv (k : String) (rs : List (Nat × Option Int))
    (hk1 : strContains k '*' = false) (hk2 : strContains k '?' = false)
    (hnd : (rs.map Prod.fst).Nodup) (hnn : ∀ r ∈ rs, 0 ≤ regPriority r)
    (hfz : firstReg0 rs = true) :
    RegInv k (regState k rs) (specOrder rs) := by
  unfold regState specOrder
  exact regFold_inv k hk1 hk2 rs emptyState [] (regInv_empty k) hnd
    (by intro r _ h; simp at h) hnn (fun _ => hfz)

theorem emitTail_zero (φ : Nat → List Val → Bool) (key : String) (args : List Val)
    (al : Nat) (s2 : EmitterState) (t12 : List TraceEv)
    (hpf : s2.propagationStopped = false) (hf : s2.flags = 0) :
    emitTail φ key args al s2 t12 = (true, s2, t12) := by
  unfold emitTail
  rw [hpf, hf]
  simp

/-- On an invariant state, an emission of the key invokes exactly the stored
identities in stored order with the raw arguments. -/
theorem regInv_emit_trace (k : String) (s : EmitterState) (al : List (Nat × Int))
    (φ : Nat → List Val → Bool) (args : List Val) (hinv : RegInv k s al) :
    (emit passiveEnv φ s k args).2.2
      = (al.map Prod.fst).map (fun i => TraceEv.call i args) := by
  have holE : aget s.onceEvents k = none := by rw [hinv.once_nil]; rfl
  cases hae : aget s.events k with
  | none =>
    have h0 : al.map Prod.fst = [] := by rw [← hinv.entry_eq, hae]; rfl
    rw [h0]
    simp [emit, hae, holE, hinv.any_nil, hinv.pipes_nil]
  | some e =>
    cases e with
    | one g =>
      have hml : al.map Prod.fst = [g] := by rw [← hinv.entry_eq, hae]; rfl
      rw [emit_fast_eq φ s k g args hae hinv.nw hinv.prop_false]
      have hofN : oncePhaseFast passiveEnv φ s k args (args.take 5) = (s, []) := by
        unfold oncePhaseFast
        rw [hinv.once_nil]
        rfl
      have hfc : ((s.flags &&& HAS_FILTERS ≠ 0)
          && !(checkFilter φ (metaGet s g) (args.take 5))) = false := by
        rw [hinv.flags_zero]
        simp [HAS_FILTERS]
      simp only [hofN, hfc, Bool.false_eq_true, ite_false, List.append_nil]
      rw [emitTail_zero φ k args args.length s [TraceEv.call g args] hinv.prop_false
        hinv.flags_zero, hml]
      rfl
    | many ls =>
      have hml : al.map Prod.fst = ls := by rw [← hinv.entry_eq, hae]; rfl
      simp only [emit, hae, holE, runList_noWrappers s ls args hinv.nw,
        oncePhaseSlow, Option.isNone_none, Option.isNone_some, Bool.false_and,
        Bool.and_false, Bool.false_eq_true, if_false, ite_false, List.append_nil]
      rw [emitTail_zero φ k args args.length s
        (ls.map (fun i => TraceEv.call i args)) hinv.prop_false hinv.flags_zero, hml]

/-- C4 (amended): for listeners registered on a plain (non-wildcard) key with
non-negative priorities, where the first registration for the key carries the
default priority 0, `emit` invokes them in descending priority order, with
listeners of equal priority invoked in registration order: the trace of an
emission on the registered state is exactly the spec-side stable descending
insertion order `specOrder`, that order is sorted by non-increasing priority,
its annotations agree with the stored metadata priorities, and within each
priority class it preserves the registration sequence.  (The unamended claim
is refuted by the counterexample theorem on `negPriState`, which exhibits two
defects: a priority `-1` listener runs before a later priority `0` listener
because the priority-0 registration path appends unconditionally, and the
`-1` listener is invoked twice because a nonzero-priority registration on a
fresh key seeds the array with the listener and then appends it again after
the self-priority comparison fails.) -/
theorem emit_priority_order_nonneg (k : String) (rs : List (Nat × Option Int))
    (args : List Val) (φ : Nat → List Val → Bool)
    (hk1 : strContains k '*' = false) (hk2 : strContains k '?' = false)
    (hnn : ∀ r ∈ rs, 0 ≤ regPriority r)
    (hnd : (rs.map Prod.fst).Nodup)
    (hfz : firstReg0 rs = true) :
    (emit passiveEnv φ (regState k rs) k args).2.2
      = ((specOrder rs).map Prod.fst).map (fun i => TraceEv.call i args) ∧
    (specOrder rs).Pairwise (fun a b => b.2 ≤ a.2) ∧
    (∀ x ∈ specOrder rs, metaPriority (regState k rs) x.1 = x.2) ∧
    (∀ p : Int, ((specOrder rs).filter (fun z => z.2 == p)).map Prod.fst
        = (rs.filter (fun r => regPriority r == p)).map Prod.fst) := by
  have hinv := regState_inv k rs hk1 hk2 hnd hnn hfz
  refine ⟨regInv_emit_trace k (regState k rs) (specOrder rs) φ args hinv,
    ?_, hinv.pri_eq, ?_⟩
  · show (specOrder rs).Pairwise _
    unfold specOrder
    exact specOrder_foldl_sorted rs [] List.Pairwise.nil
  · intro p
    unfold specOrder
    rw [specOrder_foldl_filter rs [] p List.Pairwise.nil]
    simp [Function.comp]

/-- A concrete instance of the amended ordering theorem: a default-priority first
registration, then priorities 1, 3, 1 on key "evt", invoked as 12, 10, 13, 11 -
descending priority, ties in registration order, the default-priority listener
last. -/
theorem emit_priority_order_nonneg_witness :
    (emit passiveEnv acceptAll
        (regState "evt" [(11, none), (10, some 1), (12, some 3), (13, some 1)])
        "evt" [Val.n 7]).2.2
      = [TraceEv.call 12 [Val.n 7], TraceEv.call 10 [Val.n 7],
         TraceEv.call 13 [Val.n 7], TraceEv.call 11 [Val.n 7]] := by
  have h := emit_priority_order_nonneg "evt"
      [(11, none), (10, some 1), (12, some 3), (13, some 1)] [Val.n 7] acceptAll
      (by decide) (by decide) (by decide) (by decide) (by decide)
  rw [h.1]
  rfl

end EventsModel
